import Mathlib

/-!
# badgemagic-go: the packet codec of `src/main.go`

A shallow embedding of `Packet.MarshalBinary`, `Packet.UnmarshalBinary`,
`Message.SetImage` and the size guard of `main`, together with the parts of
the Go standard library they call (`encoding/binary` on a `bytes.Buffer`,
`fmt.Sprintf("%02d")`, `time.Parse` with the layout `"06-01-02 15:04:05"`,
`image.Image`), followed by the properties of the wire format and of the
bitmap.

Conventions of the embedding:
* a Go `byte` is a `Fin 256`, a `uint16` a `Fin 65536`; conversions that
  truncate are written with an explicit remainder;
* a Go fixed-size array `[n]T` is a list with a length proof, a slice is a list;
* a Go `string` is the list of its bytes (ASCII codes as natural numbers);
* a run-time panic is the `error` side of an `Except`;
* a method with a pointer receiver takes the receiver value and returns the
  new one next to its `error` result (`none` is `nil`).
-/

namespace BadgeMagic

/-! ## Machine types -/

/-- Go `byte` (`uint8`). -/
abbrev Byte := Fin 256

/-- Go `uint16`. -/
abbrev Word16 := Fin 65536

/-- Go fixed-size array `[n]T`. -/
abbrev FixedArray (α : Type) (n : Nat) := { l : List α // l.length = n }

/-- Go conversion `byte(x)` of a signed integer: the low 8 bits. -/
def toByte (x : Int) : Byte := ⟨(x % 256).toNat, by omega⟩

/-- Go conversion `byte(n)` / truncation of a non-negative value to 8 bits. -/
def byteOfNat (n : Nat) : Byte := ⟨n % 256, Nat.mod_lt _ (by decide)⟩

/-- Go conversion `uint16(n)` of a length: the low 16 bits. -/
def toWord16 (n : Nat) : Word16 := ⟨n % 65536, Nat.mod_lt _ (by decide)⟩

/-- Run-time panics of the Go program that the embedding tracks. -/
inductive RuntimePanic where
  | indexOutOfRange (index length : Nat)
  | makesliceLenOutOfRange
  deriving DecidableEq, Repr

/-- The `error` values of the program: `io.EOF` and `io.ErrUnexpectedEOF` from
`binary.Read`, `*time.ParseError` from `time.Parse`, and the package variable
`ErrBadImageSize`. -/
inductive Error where
  | EOF
  | ErrUnexpectedEOF
  | ParseError
  | ErrBadImageSize
  deriving DecidableEq, Repr

/-- Indexed assignment `a[i] = v` on a fixed-size array; panics when `i` is
out of range. -/
def setAt {α : Type} {n : Nat} (a : FixedArray α n) (i : Nat) (v : α) :
    Except RuntimePanic (FixedArray α n) :=
  if i < n then .ok ⟨a.val.set i v, by simp [a.property]⟩
  else .error (.indexOutOfRange i n)

/-! ## `time.Time` -/

/-- Go `time.isLeap`. -/
def isLeap (year : Int) : Bool :=
  year % 4 == 0 && (year % 100 != 0 || year % 400 == 0)

/-- Go `time.daysIn` (days of month `m` in `year`). -/
def daysIn (m : Nat) (year : Int) : Nat :=
  if m = 2 ∧ isLeap year = true then 29
  else match m with
    | 1 => 31 | 2 => 28 | 3 => 31 | 4 => 30 | 5 => 31 | 6 => 30
    | 7 => 31 | 8 => 31 | 9 => 30 | 10 => 31 | 11 => 30 | 12 => 31
    | _ => 0

/-- The civil fields of a Go `time.Time` value are always a calendar date and
a time of day. -/
def validCivil (year : Int) (month day hour minute second : Nat) : Prop :=
  1 ≤ month ∧ month ≤ 12 ∧ 1 ≤ day ∧ day ≤ daysIn month year ∧
    hour < 24 ∧ minute < 60 ∧ second < 60

instance (year : Int) (month day hour minute second : Nat) :
    Decidable (validCivil year month day hour minute second) := by
  unfold validCivil; infer_instance

/-- Go `time.Time`, seen through the accessors the program uses (`Year`,
`Month`, `Day`, `Hour`, `Minute`, `Second`). Nanoseconds and the location are
never read by the codec and are left out. -/
structure Time where
  year : Int
  month : Nat
  day : Nat
  hour : Nat
  minute : Nat
  second : Nat
  valid : validCivil year month day hour minute second

/-- The zero `time.Time{}`: January 1, year 1, 00:00:00. -/
def Time.zero : Time := ⟨1, 1, 1, 0, 0, 0, by decide⟩

/-! ## Data model of `main.go` -/

/-- The Go type `DisplayMode` (an `int`). -/
abbrev DisplayMode := Int

def ModeScrollLeft : DisplayMode := 0
def ModeScrollRight : DisplayMode := 1
def ModeScrollUp : DisplayMode := 2
def ModeScrollDown : DisplayMode := 3
def ModeStillCenter : DisplayMode := 4
def ModeAnimation : DisplayMode := 5
def ModeDropDown : DisplayMode := 6
def ModeCurtain : DisplayMode := 7
def ModeLaser : DisplayMode := 8

/-- One cell of the column bitmap, `[11]byte`. -/
abbrev Cell := FixedArray Byte 11

/-- The Go struct `Message`; `Mode` has the type `DisplayMode`, an `int`. -/
structure Message where
  Speed : Int
  Mode : Int
  Border : Bool
  Blink : Bool
  Columns : List Cell

/-- The Go struct `Packet`. -/
structure Packet where
  Magic : FixedArray Byte 6
  Timestamp : Time
  Messages : List Message

/-- The anonymous struct `packetHeader.Tm`. -/
structure TmBytes where
  Yr : Byte
  Mo : Byte
  Dy : Byte
  Hr : Byte
  Mi : Byte
  Sc : Byte

/-- The Go struct `packetHeader`; the two blank fields (`[6]byte`, `[20]byte`)
carry no data and appear only in `writeHeader` and `readHeader`. -/
structure packetHeader where
  Magic : FixedArray Byte 6
  BlinkAttr : Byte
  BorderAttr : Byte
  SpeedAndMode : FixedArray Byte 8
  MessageLength : FixedArray Word16 8
  Tm : TmBytes

/-! ## `encoding/binary` on a `bytes.Buffer` -/

/-- Big-endian bytes of a `uint16`, high byte first. -/
def be16 (w : Word16) : List Byte := [byteOfNat (w.val / 256), byteOfNat w.val]

/-- The `uint16` made of a high and a low byte (`binary.BigEndian.Uint16`). -/
def word16Of (hi lo : Byte) : Word16 := ⟨hi.val * 256 + lo.val, by omega⟩

/-- Big-endian bytes of an array of `uint16`. -/
def be16s : List Word16 → List Byte
  | [] => []
  | w :: ws => be16 w ++ be16s ws

/-- The bytes `binary.Write(d, binary.BigEndian, ph)` appends for a
`packetHeader`: the fields in declaration order, blank fields as zeros. -/
def writeHeader (ph : packetHeader) : List Byte :=
  ph.Magic.val ++ [ph.BlinkAttr, ph.BorderAttr] ++ ph.SpeedAndMode.val ++
    be16s ph.MessageLength.val ++ List.replicate 6 0 ++
    [ph.Tm.Yr, ph.Tm.Mo, ph.Tm.Dy, ph.Tm.Hr, ph.Tm.Mi, ph.Tm.Sc] ++
    List.replicate 20 0

/-- Go `io.ReadFull` on a `bytes.Buffer` holding `buf`: the `size` bytes read
and the rest of the buffer; `io.EOF` when nothing could be read,
`io.ErrUnexpectedEOF` when the buffer ran out part-way. -/
def readFull (buf : List Byte) (size : Nat) : Except Error (List Byte × List Byte) :=
  if size ≤ buf.length then .ok (buf.take size, buf.drop size)
  else if buf.length = 0 then .error .EOF
  else .error .ErrUnexpectedEOF

/-- Byte `i` of a block that `readFull` has returned (the index is in range at
every use). -/
def byteAt (bs : List Byte) (i : Nat) : Byte := bs.getD i 0

/-- The array `[n]byte` stored at offset `off` of a block. -/
def arrayAt (bs : List Byte) (off n : Nat) : FixedArray Byte n :=
  ⟨List.ofFn (fun i : Fin n => byteAt bs (off + i.val)), by simp⟩

/-- The array `[n]uint16` stored big-endian at offset `off` of a block. -/
def word16sAt (bs : List Byte) (off n : Nat) : FixedArray Word16 n :=
  ⟨List.ofFn (fun i : Fin n =>
      word16Of (byteAt bs (off + 2 * i.val)) (byteAt bs (off + 2 * i.val + 1))),
    by simp⟩

/-- The call `binary.Read(buf, binary.BigEndian, &ph)` for a `packetHeader`:
reads `binary.Size(ph) = 64` bytes and decodes the fields in declaration
order, skipping the blank ones. Returns the header and the unread rest. -/
def readHeader (buf : List Byte) : Except Error (packetHeader × List Byte) :=
  match readFull buf 64 with
  | .error e => .error e
  | .ok (bs, rest) =>
    .ok ({ Magic := arrayAt bs 0 6
           BlinkAttr := byteAt bs 6
           BorderAttr := byteAt bs 7
           SpeedAndMode := arrayAt bs 8 8
           MessageLength := word16sAt bs 16 8
           Tm := { Yr := byteAt bs 38, Mo := byteAt bs 39, Dy := byteAt bs 40
                   Hr := byteAt bs 41, Mi := byteAt bs 42, Sc := byteAt bs 43 } },
         rest)

/-- The bytes of a sequence of cells, cell after cell, row after row. -/
def cellsBytes : List Cell → List Byte
  | [] => []
  | fb :: rest => fb.val ++ cellsBytes rest

/-- The first 11 bytes of a block as a cell. -/
def cellOf (bs : List Byte) : Cell := arrayAt bs 0 11

/-- Decoding of a block of `11 * n` bytes into `n` cells. -/
def cellsOf : Nat → List Byte → List Cell
  | 0, _ => []
  | n + 1, bs => cellOf bs :: cellsOf n (bs.drop 11)

/-- The call `binary.Read(buf, binary.BigEndian, &msg.Columns)` for a slice of
`n` cells: reads `11 * n` bytes and fills the cells in order. -/
def readColumns (buf : List Byte) (n : Nat) : Except Error (List Cell × List Byte) :=
  match readFull buf (11 * n) with
  | .error e => .error e
  | .ok (bs, rest) => .ok (cellsOf n bs, rest)

/-! ## `fmt.Sprintf` and `time.Parse` -/

/-- ASCII code of the decimal digit `d`. -/
def digitChar (d : Nat) : Nat := 48 + d

/-- The verb `%02d` of `fmt.Sprintf` on a byte: its decimal digits, padded
with a zero to width 2. -/
def fmt02d (b : Byte) : List Nat :=
  if b.val < 10 then [48, digitChar b.val]
  else if b.val < 100 then [digitChar (b.val / 10), digitChar (b.val % 10)]
  else [digitChar (b.val / 100), digitChar (b.val / 10 % 10), digitChar (b.val % 10)]

/-- The string
`fmt.Sprintf("%02d-%02d-%02d %02d:%02d:%02d", Yr, Mo, Dy, Hr, Mi, Sc)`. -/
def sprintfTm (tm : TmBytes) : List Nat :=
  fmt02d tm.Yr ++ 45 :: (fmt02d tm.Mo ++ 45 :: (fmt02d tm.Dy ++ 32 ::
    (fmt02d tm.Hr ++ 58 :: (fmt02d tm.Mi ++ 58 :: fmt02d tm.Sc))))

/-- Go `time.isDigit(s, i)`. -/
def isDigit (s : List Nat) (i : Nat) : Bool :=
  match s.get? i with
  | none => false
  | some c => decide (48 ≤ c) && decide (c ≤ 57)

/-- Go `time.getnum`: a one- or two-digit number (two digits when `fixed`),
and the rest of the string. -/
def getnum (s : List Nat) (fixed : Bool) : Option (Nat × List Nat) :=
  if isDigit s 0 = false then none
  else if isDigit s 1 = false then
    if fixed then none else some (s.getD 0 48 - 48, s.drop 1)
  else some ((s.getD 0 48 - 48) * 10 + (s.getD 1 48 - 48), s.drop 2)

/-- Go `time.leadingInt` on a string too short to overflow: the value of the
leading digits (continuing from `x`) and the rest. -/
def leadingInt : List Nat → Nat → Nat × List Nat
  | [], x => (x, [])
  | c :: s, x => if c < 48 ∨ c > 57 then (x, c :: s) else leadingInt s (x * 10 + (c - 48))

/-- Go `time.atoi`: an optional sign, then digits up to the end. -/
def atoi (s : List Nat) : Option Int :=
  let signed := decide (s.head? = some 45 ∨ s.head? = some 43)
  let neg := decide (s.head? = some 45)
  match leadingInt (if signed then s.drop 1 else s) 0 with
  | (q, []) => some (if neg then -(q : Int) else (q : Int))
  | (_, _ :: _) => none

/-- Go `time.cutspace`: drop the leading spaces. -/
def cutspace : List Nat → List Nat
  | [] => []
  | c :: s => if c = 32 then cutspace s else c :: s

/-- Go `time.skip(value, lit)` for a literal `lit` of one byte `c` (every
literal chunk of the layout is one byte): a space matches any run of spaces,
any other byte matches itself. -/
def skipLit (value : List Nat) (c : Nat) : Option (List Nat) :=
  if c = 32 then
    match value with
    | [] => some []
    | v :: rest => if v ≠ 32 then none else some (cutspace (v :: rest))
  else
    match value with
    | [] => none
    | v :: rest => if v ≠ c then none else some rest

/-- The fractional second `time.Parse` accepts after the seconds although the
layout has none: a period or comma followed by digits is consumed. -/
def dropFraction (value : List Nat) : List Nat :=
  if 2 ≤ value.length ∧ (value.getD 0 0 = 46 ∨ value.getD 0 0 = 44) ∧ isDigit value 1 = true then
    (value.drop 2).dropWhile (fun c => decide (48 ≤ c) && decide (c ≤ 57))
  else value

/-- Go `time.Parse("06-01-02 15:04:05", value)`, chunk by chunk: two-digit
year (69..99 are 19xx, 0..68 are 20xx), `-`, two-digit month in 1..12, `-`,
two-digit day, space, hour below 24, `:`, two-digit minute below 60, `:`,
two-digit second below 60, nothing after it, and a day that exists in the
month. `none` stands for the `*time.ParseError`. -/
def timeParse (value : List Nat) : Option Time :=
  if value.length < 2 then none else
  match atoi (value.take 2) with
  | none => none
  | some y =>
  let year : Int := if y ≥ 69 then y + 1900 else y + 2000
  match skipLit (value.drop 2) 45 with
  | none => none
  | some value =>
  match getnum value true with
  | none => none
  | some (month, value) =>
  if hmo : month ≤ 0 ∨ 12 < month then none else
  match skipLit value 45 with
  | none => none
  | some value =>
  match getnum value true with
  | none => none
  | some (day, value) =>
  match skipLit value 32 with
  | none => none
  | some value =>
  match getnum value false with
  | none => none
  | some (hour, value) =>
  if hhr : 24 ≤ hour then none else
  match skipLit value 58 with
  | none => none
  | some value =>
  match getnum value true with
  | none => none
  | some (min, value) =>
  if hmi : 60 ≤ min then none else
  match skipLit value 58 with
  | none => none
  | some value =>
  match getnum value true with
  | none => none
  | some (sec, value) =>
  if hsc : 60 ≤ sec then none else
  if (dropFraction value).length ≠ 0 then none else
  if hdy : day < 1 ∨ day > daysIn month year then none else
  some ⟨year, month, day, hour, min, sec, by unfold validCivil; omega⟩

/-! ## `Packet.UnmarshalBinary` and `Packet.MarshalBinary` -/

/-- Test `b & (1 << uint(idx)) != 0` on a byte. -/
def bitSet (b : Byte) (idx : Nat) : Bool :=
  decide (b.val &&& ((1 <<< idx) % 256) ≠ 0)

/-- Update `b |= (1 << uint(idx))` of a byte. -/
def orBit (b : Byte) (idx : Nat) : Byte :=
  byteOfNat (b.val ||| ((1 <<< idx) % 256))

/-- The loop `for idx, msgLength := range ph.MessageLength` of
`UnmarshalBinary`, from slot `idx` on: `lens` are the lengths still to visit,
`buf` the unread bytes, `msgs` the value of `p.Messages`. Returns the final
`p.Messages` and the error, if any. -/
def unmarshalLoop (ph : packetHeader) :
    List Word16 → Nat → List Byte → List Message → List Message × Option Error
  | [], _, _, msgs => (msgs, none)
  | msgLength :: lens, idx, buf, msgs =>
    if msgLength.val = 0 then unmarshalLoop ph lens (idx + 1) buf msgs
    else
      match readColumns buf msgLength.val with
      | .error e => (msgs, some e)
      | .ok (columns, rest) =>
        let msg : Message :=
          { Speed := ((((ph.SpeedAndMode.val.getD idx 0).val &&& 0xf0) >>> 4 : Nat) : Int)
            Mode := (((ph.SpeedAndMode.val.getD idx 0).val &&& 0x0f : Nat) : Int)
            Blink := bitSet ph.BlinkAttr idx
            Border := bitSet ph.BorderAttr idx
            Columns := columns }
        unmarshalLoop ph lens (idx + 1) rest (msgs ++ [msg])

/-- Go `(p *Packet) UnmarshalBinary(data)`: the receiver after the call and
the returned error (`none` for `nil`). -/
def UnmarshalBinary (p : Packet) (data : List Byte) : Packet × Option Error :=
  match readHeader data with
  | .error e => (p, some e)
  | .ok (ph, buf) =>
    match timeParse (sprintfTm ph.Tm) with
    | none => ({ p with Magic := ph.Magic, Timestamp := Time.zero }, some .ParseError)
    | some t =>
      let r := unmarshalLoop ph ph.MessageLength.val 0 buf []
      ({ Magic := ph.Magic, Timestamp := t, Messages := r.1 }, r.2)

/-- The inner loop `for _, fb := range msg.Columns` of `MarshalBinary`. -/
def appendCells : List Byte → List Cell → List Byte
  | messageBytes, [] => messageBytes
  | messageBytes, fb :: rest => appendCells (messageBytes ++ fb.val) rest

/-- The loop `for idx, msg := range p.Messages` of `MarshalBinary`, from index
`idx` on; an index past the header arrays panics. -/
def marshalLoop : List Message → Nat → packetHeader → List Byte →
    Except RuntimePanic (packetHeader × List Byte)
  | [], _, ph, messageBytes => .ok (ph, messageBytes)
  | msg :: rest, idx, ph, messageBytes =>
    match setAt ph.SpeedAndMode idx (toByte (msg.Speed * 16) + toByte msg.Mode) with
    | .error e => .error e
    | .ok speedAndMode =>
      match setAt ph.MessageLength idx (toWord16 msg.Columns.length) with
      | .error e => .error e
      | .ok messageLength =>
        marshalLoop rest (idx + 1)
          { ph with
            SpeedAndMode := speedAndMode
            MessageLength := messageLength
            BlinkAttr := if msg.Blink then orBit ph.BlinkAttr idx else ph.BlinkAttr
            BorderAttr := if msg.Border then orBit ph.BorderAttr idx else ph.BorderAttr }
          (appendCells messageBytes msg.Columns)

/-- The header `MarshalBinary` starts from: magic and timestamp set,
everything else zero. -/
def initHeader (p : Packet) : packetHeader :=
  { Magic := p.Magic
    BlinkAttr := 0
    BorderAttr := 0
    SpeedAndMode := ⟨List.replicate 8 0, by simp⟩
    MessageLength := ⟨List.replicate 8 0, by simp⟩
    Tm := { Yr := toByte (Int.tmod p.Timestamp.year 100)
            Mo := byteOfNat p.Timestamp.month
            Dy := byteOfNat p.Timestamp.day
            Hr := byteOfNat p.Timestamp.hour
            Mi := byteOfNat p.Timestamp.minute
            Sc := byteOfNat p.Timestamp.second } }

/-- Go `(p Packet) MarshalBinary()`: `.ok data` is the return `(data, nil)`
(`binary.Write` of a fixed-size struct into a `bytes.Buffer` cannot fail),
`.error` a run-time panic. -/
def MarshalBinary (p : Packet) : Except RuntimePanic (List Byte) :=
  match marshalLoop p.Messages 0 (initHeader p) [] with
  | .error e => .error e
  | .ok (ph, messageBytes) =>
    let d := writeHeader ph ++ messageBytes
    let l := d.length % 64
    .ok (if l ≠ 0 then d ++ List.replicate (64 - l) 0 else d)

/-! ## Vocabulary of the statements and sample data -/

/-- The body of a packet: the cells of every message, in order, byte by byte. -/
def bodyBytes : List Message → List Byte
  | [] => []
  | m :: ms => cellsBytes m.Columns ++ bodyBytes ms

/-- The total number of cells of a list of messages. -/
def totalCells : List Message → Nat
  | [] => 0
  | m :: ms => m.Columns.length + totalCells ms

/-- The byte `MarshalBinary` stores in `SpeedAndMode` for a message. -/
def speedModeByte (m : Message) : Byte := toByte (m.Speed * 16) + toByte m.Mode

/-- The number of zero bytes `MarshalBinary` appends to a buffer of `n` bytes. -/
def padLength (n : Nat) : Nat := if n % 64 ≠ 0 then 64 - n % 64 else 0

/-- Slot `idx` of the header describes the message `m`. -/
def slotDescribes (ph : packetHeader) (idx : Nat) (m : Message) : Prop :=
  m.Speed = ((((ph.SpeedAndMode.val.getD idx 0).val &&& 0xf0) >>> 4 : Nat) : Int) ∧
  m.Mode = (((ph.SpeedAndMode.val.getD idx 0).val &&& 0x0f : Nat) : Int) ∧
  m.Blink = bitSet ph.BlinkAttr idx ∧ m.Border = bitSet ph.BorderAttr idx

/-- The year `time.Parse` gives to the two-digit year `y`. -/
def pivotYear (y : Nat) : Int := if (y : Int) ≥ 69 then (y : Int) + 1900 else (y : Int) + 2000

/-- The range checks of `timeParse`, on the numbers instead of the text. -/
def checkCivil (y month day hour min sec : Nat) : Option Time :=
  if hmo : month ≤ 0 ∨ 12 < month then none else
  if hhr : 24 ≤ hour then none else
  if hmi : 60 ≤ min then none else
  if hsc : 60 ≤ sec then none else
  if hdy : day < 1 ∨ day > daysIn month (pivotYear y) then none else
  some ⟨pivotYear y, month, day, hour, min, sec, by unfold validCivil; omega⟩

/-- The six timestamp bytes form a date and a time of day, the year byte
being a two-digit year counted from 2000. -/
def validTm (tm : TmBytes) : Prop :=
  tm.Yr.val ≤ 99 ∧
    validCivil (2000 + (tm.Yr.val : Int)) tm.Mo.val tm.Dy.val tm.Hr.val tm.Mi.val tm.Sc.val

instance (tm : TmBytes) : Decidable (validTm tm) := by
  unfold validTm; infer_instance

/-- The sum of the values of a list of `uint16`. -/
def sumLengths : List Word16 → Nat
  | [] => 0
  | w :: ws => w.val + sumLengths ws

/-- The receiver used in the examples: magic `wang`, zero time, no message. -/
def emptyPacket : Packet := ⟨⟨[119, 97, 110, 103, 0, 0], rfl⟩, Time.zero, []⟩

/-- An all-zero cell. -/
def zeroCell : Cell := ⟨List.replicate 11 0, rfl⟩

/-- The packet of the spec's example, stamped 2019-08-30 23:11:39: one message
of speed 5, mode ScrollLeft, with a single all-zero cell. -/
def samplePacket : Packet :=
  ⟨⟨[119, 97, 110, 103, 0, 0], rfl⟩, ⟨2019, 8, 30, 23, 11, 39, by decide⟩,
    [⟨5, ModeScrollLeft, false, false, [zeroCell]⟩]⟩

/-- The sample message widened to 65536 cells. -/
def wideMessage : Message := ⟨5, ModeScrollLeft, false, false, List.replicate 65536 zeroCell⟩

/-- The sample packet with its message widened to 65536 cells. -/
def widePacket : Packet := { samplePacket with Messages := [wideMessage] }

/-- The sample packet stamped in the year -5. -/
def ancientPacket : Packet :=
  { samplePacket with Timestamp := ⟨-5, 8, 30, 23, 11, 39, by decide⟩ }

/-- The Go variable `testData`: a packet captured from the device software. -/
def testData : List Byte := [
  119, 97, 110, 103, 0, 0, 0, 0, 69, 69, 69, 69, 69, 69, 69, 69, 0, 11, 0, 0, 0, 0, 0, 0, 0, 0,
  0, 0, 0, 0, 0, 0, 0, 0, 0, 0, 0, 0, 19, 8, 30, 23, 11, 39, 0, 0, 0, 0, 0, 0, 0, 0, 0, 0, 0, 0,
  0, 0, 0, 0, 0, 0, 0, 0, 0, 25, 0, 17, 0, 4, 64, 32, 63, 0, 0, 0, 128, 7, 4, 4, 7, 64, 132, 135,
  0, 0, 0, 0, 128, 128, 0, 128, 159, 149, 149, 0, 0, 0, 0, 0, 4, 36, 4, 36, 36, 36, 0, 0, 0, 0,
  1, 1, 241, 145, 241, 129, 240, 1, 0, 0, 0, 0, 0, 0, 0, 0, 0, 0, 0, 0, 0, 51, 0, 17, 0, 4, 0,
  96, 63, 0, 0, 0, 0, 7, 4, 4, 7, 0, 196, 135, 0, 0, 0, 0, 128, 128, 0, 128, 159, 149, 149, 0, 0,
  0, 0, 0, 4, 36, 4, 36, 36, 36, 0, 0, 0, 0, 1, 1, 241, 145, 241, 129, 240, 1, 0, 0, 0, 0, 0, 0,
  0, 0]

/-- The six timestamp bytes of a buffer, offsets 38..43. -/
def tmBytesAt (data : List Byte) : TmBytes :=
  ⟨data.getD 38 0, data.getD 39 0, data.getD 40 0, data.getD 41 0, data.getD 42 0,
    data.getD 43 0⟩

/-- The big-endian value of the `messageLength` entry of slot `i` of a buffer. -/
def slotLength (data : List Byte) (i : Nat) : Nat :=
  (data.getD (16 + 2 * i) 0).val * 256 + (data.getD (17 + 2 * i) 0).val

/-- The sum of the `messageLength` values of the 8 slots of a buffer. -/
def announcedCells (data : List Byte) : Nat := ((List.range 8).map (slotLength data)).sum

/-- The header stored in the first 64 bytes of a buffer. -/
def headerAt (data : List Byte) : packetHeader :=
  { Magic := arrayAt (data.take 64) 0 6
    BlinkAttr := byteAt (data.take 64) 6
    BorderAttr := byteAt (data.take 64) 7
    SpeedAndMode := arrayAt (data.take 64) 8 8
    MessageLength := word16sAt (data.take 64) 16 8
    Tm := { Yr := byteAt (data.take 64) 38, Mo := byteAt (data.take 64) 39
            Dy := byteAt (data.take 64) 40, Hr := byteAt (data.take 64) 41
            Mi := byteAt (data.take 64) 42, Sc := byteAt (data.take 64) 43 } }

/-- The number of cells the slots before slot `i` of a buffer announce. -/
def cellsBefore (data : List Byte) (i : Nat) : Nat :=
  ((List.range i).map (slotLength data)).sum

/-- The slots of a buffer with a non-zero `messageLength`, in increasing order. -/
def presentSlots (data : List Byte) : List Nat :=
  (List.range 8).filter (fun i => decide (slotLength data i ≠ 0))

/-- The message a buffer describes in slot `i`: the nibbles of byte `8 + i`,
bit `i` of bytes 6 and 7, and the cells at the slot's place in the body. -/
def slotMessage (data : List Byte) (i : Nat) : Message :=
  { Speed := (((data.getD (8 + i) 0).val >>> 4 : Nat) : Int)
    Mode := (((data.getD (8 + i) 0).val &&& 0x0F : Nat) : Int)
    Blink := (data.getD 6 0).val.testBit i
    Border := (data.getD 7 0).val.testBit i
    Columns := cellsOf (slotLength data i)
      ((data.drop (64 + 11 * cellsBefore data i)).take (11 * slotLength data i)) }

/-- The position, among the decoded messages, of the message of slot `i`: the
number of earlier slots with a non-zero `messageLength`. -/
def rankOf (data : List Byte) (i : Nat) : Nat :=
  ((List.range i).filter (fun j => decide (slotLength data j ≠ 0))).length

/-- A buffer whose slot 0 is empty and whose slot 1 announces one cell:
header stamped 2019-08-30 23:11:39, then the 11 bytes of the cell. -/
def gapData : List Byte :=
  [119, 97, 110, 103, 0, 0, 0, 2, 0, 0x45] ++ List.replicate 8 0 ++ [0, 1] ++
    List.replicate 18 0 ++ [19, 8, 30, 23, 11, 39] ++ List.replicate 20 0 ++
    [0x80, 0x40, 0x20, 0x10, 0x08, 0x04, 0x02, 0x01, 0xAA, 0x55, 0xFF]

/-- A header-only buffer (no message) stamped with the bytes 99-12-31 23:59:59. -/
def y99Data : List Byte :=
  [119, 97, 110, 103] ++ List.replicate 34 0 ++ [99, 12, 31, 23, 59, 59] ++
    List.replicate 20 0

/-! ## `Message.SetImage` -/

/-- Go `int` arithmetic on a 64-bit platform: a result wrapped into the range
`-2^63 .. 2^63 - 1` (two's complement). -/
def wrapInt (x : Int) : Int :=
  (x + 9223372036854775808) % 18446744073709551616 - 9223372036854775808

/-- Go `image.Point`; the coordinates are Go `int`s. -/
structure Point where
  X : Int
  Y : Int

/-- Go `image.Rectangle`. -/
structure Rectangle where
  Min : Point
  Max : Point

/-- Go `Rectangle.Dx`: the `int` subtraction `r.Max.X - r.Min.X`. -/
def Rectangle.Dx (r : Rectangle) : Int := wrapInt (r.Max.X - r.Min.X)

/-- Go `Rectangle.Dy`: the `int` subtraction `r.Max.Y - r.Min.Y`. -/
def Rectangle.Dy (r : Rectangle) : Int := wrapInt (r.Max.Y - r.Min.Y)

/-- The Go runtime constant `maxAlloc` on a 64-bit platform (`1 << 48` bytes):
`make` panics when the slice would need more memory. -/
def maxAlloc : Int := 281474976710656

/-- Go `image.Image` as `SetImage` uses it: `Bounds()`, and for every point
`(x, y)` the byte `color.GrayModel.Convert(img.At(x, y)).(color.Gray).Y`. -/
structure Image where
  Bounds : Rectangle
  GrayAt : Int → Int → Byte

/-- The gray value of the pixel in column `x`, row `y` of the raster itself,
counted from its top-left corner `Bounds().Min`. -/
def Image.pixel (img : Image) (x y : Int) : Byte :=
  img.GrayAt (img.Bounds.Min.X + x) (img.Bounds.Min.Y + y)

/-- The loop `for b := 0; b < 8 && i+b < imgWidth; b++` of `SetImage`, from
`b` on, acting on the byte `m.Columns[i/8][j]`; `fuel` bounds the number of
iterations (8 are enough). -/
def bitLoop (img : Image) (imgWidth : Int) (i j : Nat) : Nat → Nat → Byte → Byte
  | 0, _, acc => acc
  | fuel + 1, b, acc =>
    if b < 8 ∧ ((i + b : Nat) : Int) < imgWidth then
      bitLoop img imgWidth i j fuel (b + 1)
        (if 0x7f < (img.GrayAt ((i + b : Nat) : Int) (j : Int)).val then orBit acc (7 - b)
          else acc)
    else acc

/-- The loop `for j := 0; j < 11; j++` of `SetImage`, from `j` on, acting on
the cell `m.Columns[i/8]`; `fuel` bounds the number of iterations (11 are
enough). -/
def rowLoop (img : Image) (imgWidth : Int) (i : Nat) : Nat → Nat → Cell → Cell
  | 0, _, cell => cell
  | fuel + 1, j, cell =>
    if j < 11 then
      rowLoop img imgWidth i fuel (j + 1)
        ⟨cell.val.set j (bitLoop img imgWidth i j 8 0 (cell.val.getD j 0)),
          by simp [cell.property]⟩
    else cell

/-- The loop `for i := 0; i < imgWidth; i += 8` of `SetImage`, from `i` on,
acting on `m.Columns`; `fuel` bounds the number of iterations (`imgWidth` are
enough). The index `i/8` is in range whenever `i < imgWidth`, because
`m.Columns` has `ceil(imgWidth / 8)` cells. -/
def cellLoop (img : Image) (imgWidth : Int) : Nat → Nat → List Cell → List Cell
  | 0, _, columns => columns
  | fuel + 1, i, columns =>
    if (i : Int) < imgWidth then
      cellLoop img imgWidth fuel (i + 8)
        (columns.set (i / 8) (rowLoop img imgWidth i 11 0 (columns.getD (i / 8) zeroCell)))
    else columns

/-- Go `(m *Message) SetImage(img)`: the receiver after the call and the
returned error (`none` for `nil`); `.error` is a run-time panic: `make` panics
with `makeslice: len out of range` for a negative length and for a slice of
more than `maxAlloc` bytes (11 bytes a cell); a smaller slice is taken to be
allocated (running out of memory ends the process and is not part of this
model). Once `make` has returned, `imgWidth` is below `2^49`, so no `int` of
the loops overflows. -/
def SetImage (m : Message) (img : Image) : Except RuntimePanic (Message × Option Error) :=
  let bounds := img.Bounds
  if bounds.Dy ≠ 11 then .ok (m, some .ErrBadImageSize)
  else
    let imgWidth := bounds.Dx
    let nrCells := Int.tdiv imgWidth 8 + (if Int.tmod imgWidth 8 ≠ 0 then 1 else 0)
    if nrCells < 0 ∨ maxAlloc < 11 * nrCells then .error .makesliceLenOutOfRange
    else
      .ok ({ m with
             Columns := cellLoop img imgWidth imgWidth.toNat 0
               (List.replicate nrCells.toNat zeroCell) }, none)

/-- The image of the `-test` path of `main`: `image.NewGray` of 25 by 11
pixels, all black, with the pixel (10, 5) set to 255. -/
def testImage : Image :=
  { Bounds := ⟨⟨0, 0⟩, ⟨25, 11⟩⟩
    GrayAt := fun x y => if x = 10 ∧ y = 5 then 255 else 0 }

/-- The cell with only bit 5 of row 5 set: the pixel (10, 5) of the test image. -/
def litCell : Cell := ⟨[0, 0, 0, 0, 0, 0x20, 0, 0, 0, 0, 0], rfl⟩

/-- The message of the `-test` path of `main`, before `SetImage`:
`Message{Speed: 0, Mode: ModeAnimation, Border: true}`. -/
def testMessage : Message := ⟨0, ModeAnimation, true, false, []⟩

/-- The cell with every pixel lit. -/
def fullCell : Cell := ⟨List.replicate 11 255, rfl⟩

/-- The gray image `image.NewGray(image.Rect(0, 0, 8, 11))` with every pixel
set to `L`; outside its bounds `At` gives the zero colour. -/
def solidImage (L : Byte) : Image :=
  { Bounds := ⟨⟨0, 0⟩, ⟨8, 11⟩⟩
    GrayAt := fun x y => if 0 ≤ x ∧ x < 8 ∧ 0 ≤ y ∧ y < 11 then L else 0 }

/-- The gray image `image.NewGray(image.Rect(8, 0, 16, 11))` with every pixel
set to 255: 8 by 11 pixels, the left edge at column 8. -/
def shiftedImage : Image :=
  { Bounds := ⟨⟨8, 0⟩, ⟨16, 11⟩⟩
    GrayAt := fun x y => if 8 ≤ x ∧ x < 16 ∧ 0 ≤ y ∧ y < 11 then 255 else 0 }

/-- An all-black image of height 11 and width `2^62`. -/
def hugeImage : Image :=
  { Bounds := ⟨⟨0, 0⟩, ⟨4611686018427387904, 11⟩⟩
    GrayAt := fun _ _ => 0 }

/-- The image of height 11 and width 8 whose `Dy()` is 11 only through the
wrap-around of `int`: rows from `2^63 - 1` to `-2^63 + 10`, every point at
gray 255. -/
def wrapImage : Image :=
  { Bounds := ⟨⟨0, 9223372036854775807⟩, ⟨8, -9223372036854775798⟩⟩
    GrayAt := fun _ _ => 255 }

/-- What the end of `main` does with the encoded buffer. -/
inductive SendOutcome where
  | fatal (l : Nat)
  | written (buf : List Byte)

/-- The end of `main`, after `MarshalBinary`: the guard `if l := len(buf);
l > 8192 { log.Fatalf(...) }` stops the program, otherwise the buffer goes to
`devOpen.Write`. -/
def mainSend (buf : List Byte) : SendOutcome :=
  if buf.length > 8192 then .fatal buf.length else .written buf

/-- The sample packet with 8 messages of 1000 all-zero cells each. -/
def bigPacket : Packet :=
  { samplePacket with
    Messages := List.replicate 8 ⟨5, ModeScrollLeft, false, false, List.replicate 1000 zeroCell⟩ }

/-! ## Lemmas on the encoder -/

theorem cellsBytes_length (cs : List Cell) : (cellsBytes cs).length = 11 * cs.length := by
  induction cs with
  | nil => rfl
  | cons c cs ih => simp [cellsBytes, ih, c.property]; omega

theorem bodyBytes_length (ms : List Message) : (bodyBytes ms).length = 11 * totalCells ms := by
  induction ms with
  | nil => rfl
  | cons m ms ih => simp [bodyBytes, totalCells, ih, cellsBytes_length]; omega

theorem appendCells_eq (cs : List Cell) (mb : List Byte) :
    appendCells mb cs = mb ++ cellsBytes cs := by
  induction cs generalizing mb with
  | nil => simp [appendCells, cellsBytes]
  | cons c cs ih => simp [appendCells, cellsBytes, ih]

theorem bitSet_eq_testBit (b : Byte) (j : Nat) (hj : j < 8) :
    bitSet b j = b.val.testBit j := by
  have h2 : (1 <<< j) % 256 = 2 ^ j := by
    rw [Nat.one_shiftLeft]
    apply Nat.mod_eq_of_lt
    calc 2 ^ j < 2 ^ 8 := Nat.pow_lt_pow_right (by decide) hj
      _ = 256 := by norm_num
  unfold bitSet
  rw [h2, Nat.and_two_pow]
  cases h : b.val.testBit j <;> simp [h]

theorem orBit_testBit (b : Byte) (idx j : Nat) (hidx : idx < 8) :
    (orBit b idx).val.testBit j = (b.val.testBit j || decide (idx = j)) := by
  have h1 : 2 ^ idx < 2 ^ 8 := Nat.pow_lt_pow_right (by decide) hidx
  have h2 : (1 <<< idx) % 256 = 2 ^ idx := by
    rw [Nat.one_shiftLeft]
    exact Nat.mod_eq_of_lt (by omega)
  have h3 : b.val ||| 2 ^ idx < 2 ^ 8 := Nat.or_lt_two_pow (by have := b.isLt; omega) h1
  unfold orBit byteOfNat
  simp only [h2]
  rw [Nat.mod_eq_of_lt (by omega), Nat.testBit_or, Nat.testBit_two_pow]

theorem take_succ_set {α : Type} (l : List α) (i : Nat) (v : α) (h : i < l.length) :
    (l.set i v).take (i + 1) = l.take i ++ [v] := by
  rw [List.set_eq_take_append_cons_drop, if_pos h, List.take_append_eq_append_take]
  have h1 : min i l.length = i := Nat.min_eq_left (Nat.le_of_lt h)
  simp [List.length_take, h1, List.take_take]

theorem set_slice {α : Type} (l : List α) (i k : Nat) (v : α) (xs : List α)
    (h : i < l.length) :
    (l.set i v).take (i + 1) ++ xs ++ (l.set i v).drop (i + 1 + k) =
      l.take i ++ v :: xs ++ l.drop (i + (k + 1)) := by
  rw [take_succ_set l i v h, List.drop_set_of_lt v l (by omega)]
  have : i + 1 + k = i + (k + 1) := by omega
  simp [this]

theorem flag_step (b : Byte) (flag : Bool) (idx j : Nat) (hidx : idx < 8) :
    (if flag = true then orBit b idx else b).val.testBit j = true ↔
      (b.val.testBit j = true ∨ (idx = j ∧ flag = true)) := by
  cases flag
  · simp
  · simp [orBit_testBit b idx j hidx]

theorem slot_step (m : Message) (ms : List Message) (idx j : Nat) (P : Message → Prop) :
    (∃ m2, idx ≤ j ∧ (m :: ms)[j - idx]? = some m2 ∧ P m2) ↔
      ((idx = j ∧ P m) ∨ ∃ m2, idx + 1 ≤ j ∧ ms[j - (idx + 1)]? = some m2 ∧ P m2) := by
  rcases Nat.lt_trichotomy j idx with h | h | h
  · constructor
    · rintro ⟨m2, h1, _⟩; omega
    · rintro (⟨h1, _⟩ | ⟨m2, h1, _⟩) <;> omega
  · subst h
    constructor
    · rintro ⟨m2, _, h2, h3⟩
      simp at h2
      subst h2
      exact Or.inl ⟨rfl, h3⟩
    · rintro (⟨_, h3⟩ | ⟨m2, h1, _⟩)
      · exact ⟨m, Nat.le_refl _, by simp, h3⟩
      · omega
  · have e : j - idx = (j - (idx + 1)) + 1 := by omega
    constructor
    · rintro ⟨m2, _, h2, h3⟩
      rw [e, List.getElem?_cons_succ] at h2
      exact Or.inr ⟨m2, by omega, h2, h3⟩
    · rintro (⟨h1, _⟩ | ⟨m2, h1, h2, h3⟩)
      · omega
      · refine ⟨m2, by omega, ?_, h3⟩
        rw [e, List.getElem?_cons_succ]
        exact h2

/-- What the encoder loop leaves in the header and the body buffer. -/
theorem marshalLoop_spec (ms : List Message) :
    ∀ (idx : Nat) (ph : packetHeader) (mb : List Byte), idx + ms.length ≤ 8 →
      ∃ ph2, marshalLoop ms idx ph mb = .ok (ph2, mb ++ bodyBytes ms) ∧
        ph2.Magic = ph.Magic ∧ ph2.Tm = ph.Tm ∧
        ph2.SpeedAndMode.val = ph.SpeedAndMode.val.take idx ++ ms.map speedModeByte ++
          ph.SpeedAndMode.val.drop (idx + ms.length) ∧
        ph2.MessageLength.val = ph.MessageLength.val.take idx ++
          ms.map (fun m => toWord16 m.Columns.length) ++
          ph.MessageLength.val.drop (idx + ms.length) ∧
        (∀ j, ph2.BlinkAttr.val.testBit j = true ↔ (ph.BlinkAttr.val.testBit j = true ∨
          ∃ m, idx ≤ j ∧ ms[j - idx]? = some m ∧ m.Blink = true)) ∧
        (∀ j, ph2.BorderAttr.val.testBit j = true ↔ (ph.BorderAttr.val.testBit j = true ∨
          ∃ m, idx ≤ j ∧ ms[j - idx]? = some m ∧ m.Border = true)) := by
  induction ms with
  | nil =>
    intro idx ph mb _
    refine ⟨ph, ?_, rfl, rfl, ?_, ?_, ?_, ?_⟩ <;> simp [marshalLoop, bodyBytes]
  | cons m ms ih =>
    intro idx ph mb h
    simp only [List.length_cons] at h
    have hidx : idx < 8 := by omega
    obtain ⟨ph2, h1, h2, h3, h4, h5, h6, h7⟩ := ih (idx + 1)
      { ph with
        SpeedAndMode := ⟨ph.SpeedAndMode.val.set idx (speedModeByte m), by simp [ph.SpeedAndMode.property]⟩
        MessageLength := ⟨ph.MessageLength.val.set idx (toWord16 m.Columns.length), by simp [ph.MessageLength.property]⟩
        BlinkAttr := if m.Blink then orBit ph.BlinkAttr idx else ph.BlinkAttr
        BorderAttr := if m.Border then orBit ph.BorderAttr idx else ph.BorderAttr }
      (appendCells mb m.Columns) (by omega)
    refine ⟨ph2, ?_, h2, h3, ?_, ?_, ?_, ?_⟩
    · have hstep : marshalLoop (m :: ms) idx ph mb = marshalLoop ms (idx + 1)
          { ph with
            SpeedAndMode := ⟨ph.SpeedAndMode.val.set idx (speedModeByte m), by simp [ph.SpeedAndMode.property]⟩
            MessageLength := ⟨ph.MessageLength.val.set idx (toWord16 m.Columns.length), by simp [ph.MessageLength.property]⟩
            BlinkAttr := if m.Blink then orBit ph.BlinkAttr idx else ph.BlinkAttr
            BorderAttr := if m.Border then orBit ph.BorderAttr idx else ph.BorderAttr }
          (appendCells mb m.Columns) := by
        simp [marshalLoop, setAt, hidx, speedModeByte]
      rw [hstep, h1]
      simp [appendCells_eq, bodyBytes]
    · rw [h4]
      simp only []
      have hl : idx < ph.SpeedAndMode.val.length := by rw [ph.SpeedAndMode.property]; exact hidx
      simpa using set_slice ph.SpeedAndMode.val idx ms.length (speedModeByte m)
        (ms.map speedModeByte) hl
    · rw [h5]
      simp only []
      have hl : idx < ph.MessageLength.val.length := by rw [ph.MessageLength.property]; exact hidx
      simpa using set_slice ph.MessageLength.val idx ms.length (toWord16 m.Columns.length)
        (ms.map (fun m => toWord16 m.Columns.length)) hl
    · intro j
      rw [h6, slot_step m ms idx j (fun m => m.Blink = true)]
      simp only []
      rw [flag_step ph.BlinkAttr m.Blink idx j hidx]
      tauto
    · intro j
      rw [h7, slot_step m ms idx j (fun m => m.Border = true)]
      simp only []
      rw [flag_step ph.BorderAttr m.Border idx j hidx]
      tauto

theorem be16s_length (ws : List Word16) : (be16s ws).length = 2 * ws.length := by
  induction ws with
  | nil => rfl
  | cons w ws ih => simp [be16s, be16, ih]; omega

theorem writeHeader_length (ph : packetHeader) : (writeHeader ph).length = 64 := by
  simp [writeHeader, be16s_length, ph.Magic.property, ph.SpeedAndMode.property,
    ph.MessageLength.property]

/-- The encoder on a packet of at most 8 messages: header, body, padding, and
the contents of the header. -/
theorem MarshalBinary_spec (p : Packet) (h : p.Messages.length ≤ 8) :
    ∃ ph, MarshalBinary p = .ok (writeHeader ph ++ bodyBytes p.Messages ++
        List.replicate (padLength (64 + 11 * totalCells p.Messages)) 0) ∧
      ph.Magic = p.Magic ∧ ph.Tm = (initHeader p).Tm ∧
      ph.SpeedAndMode.val = p.Messages.map speedModeByte ++
        List.replicate (8 - p.Messages.length) 0 ∧
      ph.MessageLength.val = p.Messages.map (fun m => toWord16 m.Columns.length) ++
        List.replicate (8 - p.Messages.length) 0 ∧
      (∀ j, ph.BlinkAttr.val.testBit j = true ↔ ∃ m, p.Messages[j]? = some m ∧ m.Blink = true) ∧
      (∀ j, ph.BorderAttr.val.testBit j = true ↔
        ∃ m, p.Messages[j]? = some m ∧ m.Border = true) := by
  obtain ⟨ph, h1, h2, h3, h4, h5, h6, h7⟩ :=
    marshalLoop_spec p.Messages 0 (initHeader p) [] (by omega)
  refine ⟨ph, ?_, h2, h3, ?_, ?_, ?_, ?_⟩
  · unfold MarshalBinary
    rw [h1]
    simp only [List.nil_append, List.length_append, writeHeader_length, bodyBytes_length,
      padLength]
    split <;> simp
  · rw [h4]
    simp only [initHeader, List.take_zero, List.nil_append, Nat.zero_add, List.drop_replicate]
  · rw [h5]
    simp only [initHeader, List.take_zero, List.nil_append, Nat.zero_add, List.drop_replicate]
  · intro j; rw [h6]; simp [initHeader]
  · intro j; rw [h7]; simp [initHeader]

/-! ## Lemmas on the decoder -/

theorem list_length_six {α : Type} (l : List α) (h : l.length = 6) :
    ∃ a b c d e f, l = [a, b, c, d, e, f] := by
  rcases l with _ | ⟨a, _ | ⟨b, _ | ⟨c, _ | ⟨d, _ | ⟨e, _ | ⟨f, _ | ⟨g, l⟩⟩⟩⟩⟩⟩⟩ <;>
    simp at h
  exact ⟨a, b, c, d, e, f, rfl⟩

theorem list_length_eight {α : Type} (l : List α) (h : l.length = 8) :
    ∃ a b c d e f g k, l = [a, b, c, d, e, f, g, k] := by
  rcases l with _ | ⟨a, _ | ⟨b, _ | ⟨c, _ | ⟨d, _ | ⟨e, _ | ⟨f, _ | ⟨g, _ | ⟨k, _ | ⟨x, l⟩⟩⟩⟩⟩⟩⟩⟩⟩ <;>
    simp at h
  exact ⟨a, b, c, d, e, f, g, k, rfl⟩

theorem word16Of_be16 (w : Word16) :
    word16Of (byteOfNat (w.val / 256)) (byteOfNat w.val) = w := by
  apply Fin.ext
  have := w.isLt
  simp only [word16Of, byteOfNat]
  omega

theorem readFull_append (bs rest : List Byte) (n : Nat) (h : bs.length = n) :
    readFull (bs ++ rest) n = .ok (bs, rest) := by
  simp [readFull, h, List.take_left' h, List.drop_left' h]

/-- Reading back a header that was written gives the same header. -/
theorem readHeader_writeHeader (ph : packetHeader) (rest : List Byte) :
    readHeader (writeHeader ph ++ rest) = .ok (ph, rest) := by
  unfold readHeader
  rw [readFull_append _ _ 64 (writeHeader_length ph)]
  obtain ⟨⟨mg, hmg⟩, bl, bo, ⟨sm, hsm⟩, ⟨ml, hml⟩, ⟨yr, mo, dy, hr, mi, sc⟩⟩ := ph
  obtain ⟨a0, a1, a2, a3, a4, a5, rfl⟩ := list_length_six mg hmg
  obtain ⟨s0, s1, s2, s3, s4, s5, s6, s7, rfl⟩ := list_length_eight sm hsm
  obtain ⟨w0, w1, w2, w3, w4, w5, w6, w7, rfl⟩ := list_length_eight ml hml
  simp [writeHeader, be16s, be16, arrayAt, word16sAt, byteAt, word16Of_be16, List.ofFn_succ]

theorem cellOf_append (c : Cell) (rest : List Byte) : cellOf (c.val ++ rest) = c := by
  obtain ⟨l, hl⟩ := c
  rcases l with _ | ⟨a, _ | ⟨b, _ | ⟨c, _ | ⟨d, _ | ⟨e, _ | ⟨f, _ | ⟨g, _ | ⟨k, _ | ⟨x, _ | ⟨y,
    _ | ⟨z, _ | ⟨u, l⟩⟩⟩⟩⟩⟩⟩⟩⟩⟩⟩⟩ <;> simp at hl
  simp [cellOf, arrayAt, byteAt, List.ofFn_succ]

theorem cellsOf_cellsBytes (cs : List Cell) (rest : List Byte) :
    cellsOf cs.length (cellsBytes cs ++ rest) = cs := by
  induction cs with
  | nil => rfl
  | cons c cs ih =>
    simp only [List.length_cons, cellsOf, cellsBytes, List.append_assoc, cellOf_append]
    rw [List.drop_left' c.property, ih]

theorem readColumns_cellsBytes (cs : List Cell) (rest : List Byte) :
    readColumns (cellsBytes cs ++ rest) cs.length = .ok (cs, rest) := by
  unfold readColumns
  rw [readFull_append _ _ _ (cellsBytes_length cs)]
  simpa using cellsOf_cellsBytes cs []

theorem unmarshalLoop_zeros (ph : packetHeader) (zs : List Word16) :
    ∀ (idx : Nat) (buf : List Byte) (msgs : List Message), (∀ z ∈ zs, z.val = 0) →
      unmarshalLoop ph zs idx buf msgs = (msgs, none) := by
  induction zs with
  | nil => intro idx buf msgs _; rfl
  | cons z zs ih =>
    intro idx buf msgs hz
    have hz0 : z.val = 0 := hz z (List.mem_cons_self _ _)
    simp only [unmarshalLoop, hz0, if_true]
    exact ih (idx + 1) buf msgs (fun z hz2 => hz z (List.mem_cons_of_mem _ hz2))

theorem unmarshalLoop_cons_ok (ph : packetHeader) (w : Word16) (lens : List Word16) (idx : Nat)
    (cs : List Cell) (rest : List Byte) (msgs : List Message) (hw : w.val = cs.length)
    (hne : cs.length ≠ 0) :
    unmarshalLoop ph (w :: lens) idx (cellsBytes cs ++ rest) msgs =
      unmarshalLoop ph lens (idx + 1) rest (msgs ++
        [{ Speed := ((((ph.SpeedAndMode.val.getD idx 0).val &&& 0xf0) >>> 4 : Nat) : Int)
           Mode := (((ph.SpeedAndMode.val.getD idx 0).val &&& 0x0f : Nat) : Int)
           Blink := bitSet ph.BlinkAttr idx
           Border := bitSet ph.BorderAttr idx
           Columns := cs }]) := by
  simp only [unmarshalLoop, hw, hne, if_false, readColumns_cellsBytes]

/-- The decoder loop on the lengths and the body of a list of messages that
the header describes gives these messages back. -/
theorem unmarshalLoop_roundtrip (ph : packetHeader) (ms : List Message) :
    ∀ (idx : Nat) (zs : List Word16) (rest : List Byte) (msgs : List Message),
      (∀ j m, ms[j]? = some m → slotDescribes ph (idx + j) m) →
      (∀ m ∈ ms, 1 ≤ m.Columns.length ∧ m.Columns.length < 65536) →
      (∀ z ∈ zs, z.val = 0) →
      unmarshalLoop ph (ms.map (fun m => toWord16 m.Columns.length) ++ zs) idx
        (bodyBytes ms ++ rest) msgs = (msgs ++ ms, none) := by
  induction ms with
  | nil =>
    intro idx zs rest msgs _ _ hz
    simpa [bodyBytes] using unmarshalLoop_zeros ph zs idx rest msgs hz
  | cons m ms ih =>
    intro idx zs rest msgs hd hlen hz
    obtain ⟨hl1, hl2⟩ := hlen m (List.mem_cons_self _ _)
    have hw : (toWord16 m.Columns.length).val = m.Columns.length := Nat.mod_eq_of_lt hl2
    obtain ⟨d1, d2, d3, d4⟩ := hd 0 m (by simp)
    rw [List.map_cons, List.cons_append, bodyBytes, List.append_assoc,
      unmarshalLoop_cons_ok ph _ _ idx m.Columns _ msgs hw (by omega),
      ih (idx + 1) zs rest _ ?_ (fun m2 hm2 => hlen m2 (List.mem_cons_of_mem _ hm2)) hz]
    · simp only [Nat.add_zero] at d1 d2 d3 d4
      rw [← d1, ← d2, ← d3, ← d4]
      simp
    · intro j m2 hj
      have := hd (j + 1) m2 (by simpa using hj)
      rw [show idx + 1 + j = idx + (j + 1) by omega]
      exact this

/-! ## Lemmas on the timestamp -/

theorem fmt02d_small (b : Byte) (h : b.val < 100) :
    fmt02d b = [digitChar (b.val / 10), digitChar (b.val % 10)] := by
  unfold fmt02d
  by_cases h1 : b.val < 10
  · have e1 : b.val / 10 = 0 := by omega
    have e2 : b.val % 10 = b.val := by omega
    simp [h1, e1, e2, digitChar]
  · simp [h1, h]

theorem fmt02d_large (b : Byte) (h : 100 ≤ b.val) :
    fmt02d b = [digitChar (b.val / 100), digitChar (b.val / 10 % 10), digitChar (b.val % 10)] := by
  unfold fmt02d
  have h1 : ¬ b.val < 10 := by omega
  have h2 : ¬ b.val < 100 := by omega
  simp [h1, h2]

theorem getnum_digits (d1 d2 : Nat) (rest : List Nat) (fixed : Bool) (h1 : d1 < 10)
    (h2 : d2 < 10) :
    getnum (digitChar d1 :: digitChar d2 :: rest) fixed = some (d1 * 10 + d2, rest) := by
  have a1 : 48 + d1 ≤ 57 := by omega
  have a2 : 48 + d2 ≤ 57 := by omega
  simp [getnum, isDigit, digitChar, a1, a2]

theorem atoi_digits (d1 d2 : Nat) (h1 : d1 < 10) (h2 : d2 < 10) :
    atoi [digitChar d1, digitChar d2] = some ((d1 * 10 + d2 : Nat) : Int) := by
  have a1 : ¬ (48 + d1 = 45) := by omega
  have a2 : ¬ (48 + d1 = 43) := by omega
  have a3 : ¬ (48 + d1 > 57) := by omega
  have a4 : ¬ (48 + d2 > 57) := by omega
  simp [atoi, leadingInt, digitChar, a1, a2, a3, a4]

theorem skipLit_digit (d c : Nat) (rest : List Nat) (hd : d < 10)
    (hc : c = 45 ∨ c = 32 ∨ c = 58) : skipLit (digitChar d :: rest) c = none := by
  have a1 : ¬ (48 + d = 32) := by omega
  rcases hc with rfl | rfl | rfl
  · have a2 : ¬ (48 + d = 45) := by omega
    simp [skipLit, digitChar, a2]
  · simp [skipLit, digitChar, a1]
  · have a2 : ¬ (48 + d = 58) := by omega
    simp [skipLit, digitChar, a2]

theorem skipLit_dash (rest : List Nat) : skipLit (45 :: rest) 45 = some rest := by
  simp [skipLit]

theorem skipLit_colon (rest : List Nat) : skipLit (58 :: rest) 58 = some rest := by
  simp [skipLit]

theorem skipLit_space (d : Nat) (rest : List Nat) :
    skipLit (32 :: digitChar d :: rest) 32 = some (digitChar d :: rest) := by
  have a1 : ¬ (48 + d = 32) := by omega
  simp [skipLit, cutspace, digitChar, a1]

theorem getnum_small (b : Byte) (h : b.val < 100) (rest : List Nat) (fixed : Bool) :
    getnum (fmt02d b ++ rest) fixed = some (b.val, rest) := by
  rw [fmt02d_small b h]
  simp only [List.cons_append, List.nil_append]
  rw [getnum_digits _ _ _ _ (by omega) (by omega)]
  congr 2
  omega

theorem getnum_large (b : Byte) (h : 100 ≤ b.val) (rest : List Nat) (fixed : Bool) :
    getnum (fmt02d b ++ rest) fixed =
      some (b.val / 100 * 10 + b.val / 10 % 10, digitChar (b.val % 10) :: rest) := by
  have := b.isLt
  rw [fmt02d_large b h]
  simp only [List.cons_append, List.nil_append]
  rw [getnum_digits _ _ _ _ (by omega) (by omega)]

theorem year_small (b : Byte) (h : b.val < 100) (rest : List Nat) :
    ¬ (fmt02d b ++ rest).length < 2 ∧
      atoi ((fmt02d b ++ rest).take 2) = some (b.val : Int) ∧
      (fmt02d b ++ rest).drop 2 = rest := by
  rw [fmt02d_small b h]
  refine ⟨by simp, ?_, by simp⟩
  simp only [List.cons_append, List.nil_append, List.take_succ_cons, List.take_zero]
  rw [atoi_digits _ _ (by omega) (by omega)]
  congr 2
  omega

theorem year_large (b : Byte) (h : 100 ≤ b.val) (rest : List Nat) :
    ¬ (fmt02d b ++ rest).length < 2 ∧
      atoi ((fmt02d b ++ rest).take 2) = some ((b.val / 100 * 10 + b.val / 10 % 10 : Nat) : Int) ∧
      (fmt02d b ++ rest).drop 2 = digitChar (b.val % 10) :: rest := by
  have := b.isLt
  rw [fmt02d_large b h]
  refine ⟨by simp, ?_, by simp⟩
  simp only [List.cons_append, List.nil_append, List.take_succ_cons, List.take_zero]
  rw [atoi_digits _ _ (by omega) (by omega)]

theorem skipLit_space_fmt (b : Byte) (rest : List Nat) :
    skipLit (32 :: (fmt02d b ++ rest)) 32 = some (fmt02d b ++ rest) := by
  by_cases h : b.val < 100
  · rw [fmt02d_small b h]
    exact skipLit_space _ _
  · rw [fmt02d_large b (by omega)]
    exact skipLit_space _ _

/-- The parse of a formatted timestamp, on the numbers: a byte above 99
prints as three digits and fails, the others go through the range checks. -/
theorem timeParse_sprintfTm (tm : TmBytes) :
    timeParse (sprintfTm tm) =
      if tm.Yr.val < 100 ∧ tm.Mo.val < 100 ∧ tm.Dy.val < 100 ∧ tm.Hr.val < 100 ∧
          tm.Mi.val < 100 ∧ tm.Sc.val < 100 then
        checkCivil tm.Yr.val tm.Mo.val tm.Dy.val tm.Hr.val tm.Mi.val tm.Sc.val
      else none := by
  have hd : ∀ n : Nat, n % 10 < 10 := fun n => Nat.mod_lt _ (by decide)
  unfold sprintfTm timeParse
  rw [show fmt02d tm.Sc = fmt02d tm.Sc ++ [] from (List.append_nil _).symm]
  by_cases hy : tm.Yr.val < 100
  swap
  · obtain ⟨y1, y2, y3⟩ := year_large tm.Yr (by omega) (45 :: (fmt02d tm.Mo ++ 45 ::
      (fmt02d tm.Dy ++ 32 :: (fmt02d tm.Hr ++ 58 :: (fmt02d tm.Mi ++ 58 :: (fmt02d tm.Sc ++ []))))))
    simp only [y1, y2, y3, if_false, skipLit_digit _ _ _ (hd _) (Or.inl rfl), hy, false_and]
  obtain ⟨y1, y2, y3⟩ := year_small tm.Yr hy (45 :: (fmt02d tm.Mo ++ 45 ::
    (fmt02d tm.Dy ++ 32 :: (fmt02d tm.Hr ++ 58 :: (fmt02d tm.Mi ++ 58 :: (fmt02d tm.Sc ++ []))))))
  simp only [y1, y2, y3, if_false, skipLit_dash]
  by_cases hm : tm.Mo.val < 100
  swap
  · simp only [getnum_large tm.Mo (by omega), skipLit_digit _ _ _ (hd _) (Or.inl rfl)]
    simp [hm]
  simp only [getnum_small tm.Mo hm, skipLit_dash]
  by_cases hdy : tm.Dy.val < 100
  swap
  · simp only [getnum_large tm.Dy (by omega),
      skipLit_digit _ _ _ (hd _) (Or.inr (Or.inl rfl))]
    simp [hdy]
  simp only [getnum_small tm.Dy hdy, skipLit_space_fmt]
  by_cases hh : tm.Hr.val < 100
  swap
  · simp only [getnum_large tm.Hr (by omega),
      skipLit_digit _ _ _ (hd _) (Or.inr (Or.inr rfl))]
    simp [hh]
  simp only [getnum_small tm.Hr hh, skipLit_colon]
  by_cases hi : tm.Mi.val < 100
  swap
  · simp only [getnum_large tm.Mi (by omega),
      skipLit_digit _ _ _ (hd _) (Or.inr (Or.inr rfl))]
    simp [hi]
  simp only [getnum_small tm.Mi hi, skipLit_colon]
  by_cases hs : tm.Sc.val < 100
  swap
  · simp only [getnum_large tm.Sc (by omega)]
    simp [hs, dropFraction]
  simp only [getnum_small tm.Sc hs]
  simp [hy, hm, hdy, hh, hi, hs, dropFraction, checkCivil, pivotYear]

theorem checkCivil_of_valid (y month day hour min sec : Nat)
    (h : validCivil (pivotYear y) month day hour min sec) :
    checkCivil y month day hour min sec = some ⟨pivotYear y, month, day, hour, min, sec, h⟩ := by
  have h2 := h
  unfold validCivil at h2
  unfold checkCivil
  rw [dif_neg (by omega), dif_neg (by omega), dif_neg (by omega), dif_neg (by omega),
    dif_neg (by omega)]

theorem checkCivil_of_not_valid (y month day hour min sec : Nat)
    (h : ¬ validCivil (pivotYear y) month day hour min sec) :
    checkCivil y month day hour min sec = none := by
  unfold validCivil at h
  unfold checkCivil
  split_ifs <;> first | rfl | (exfalso; omega)

theorem isLeap_iff (year : Int) :
    isLeap year = true ↔ year % 4 = 0 ∧ (year % 100 ≠ 0 ∨ year % 400 = 0) := by
  simp [isLeap]

theorem daysIn_le_of_leap (m : Nat) (y1 y2 : Int) (h : isLeap y1 = true → isLeap y2 = true) :
    daysIn m y1 ≤ daysIn m y2 := by
  unfold daysIn
  by_cases hm : m = 2
  · subst hm
    cases e1 : isLeap y1 <;> cases e2 : isLeap y2 <;> simp_all
  · simp [hm]

/-- The spec reads the year byte as `2000 + value`; the two-digit-year pivot of
`time.Parse` gives a year with the same leap status. -/
theorem isLeap_pivotYear (y : Nat) (h : y ≤ 99) :
    isLeap (pivotYear y) = isLeap (2000 + (y : Int)) := by
  rw [Bool.eq_iff_iff, isLeap_iff, isLeap_iff]
  unfold pivotYear
  split <;> omega

theorem daysIn_pivotYear (m y : Nat) (h : y ≤ 99) :
    daysIn m (pivotYear y) = daysIn m (2000 + (y : Int)) := by
  unfold daysIn
  rw [isLeap_pivotYear y h]

theorem daysIn_le (m : Nat) (y : Int) : daysIn m y ≤ 31 := by
  unfold daysIn
  split_ifs
  · omega
  · split <;> omega

theorem timeParse_of_validTm (tm : TmBytes) (h : validTm tm) :
    ∃ t, timeParse (sprintfTm tm) = some t ∧ t.year = pivotYear tm.Yr.val ∧
      t.month = tm.Mo.val ∧ t.day = tm.Dy.val ∧ t.hour = tm.Hr.val ∧
      t.minute = tm.Mi.val ∧ t.second = tm.Sc.val := by
  obtain ⟨hy, hv⟩ := h
  have hv2 : validCivil (pivotYear tm.Yr.val) tm.Mo.val tm.Dy.val tm.Hr.val tm.Mi.val
      tm.Sc.val := by
    unfold validCivil at hv ⊢
    rw [daysIn_pivotYear _ _ hy]
    exact hv
  have hv3 := hv
  unfold validCivil at hv3
  have := daysIn_le tm.Mo.val (2000 + (tm.Yr.val : Int))
  refine ⟨⟨pivotYear tm.Yr.val, tm.Mo.val, tm.Dy.val, tm.Hr.val, tm.Mi.val, tm.Sc.val, hv2⟩,
    ?_, rfl, rfl, rfl, rfl, rfl, rfl⟩
  rw [timeParse_sprintfTm, if_pos (by omega), checkCivil_of_valid _ _ _ _ _ _ hv2]

theorem timeParse_of_not_validTm (tm : TmBytes) (h : ¬ validTm tm) :
    timeParse (sprintfTm tm) = none := by
  rw [timeParse_sprintfTm]
  split_ifs with h1
  · apply checkCivil_of_not_valid
    intro hv
    apply h
    refine ⟨by omega, ?_⟩
    unfold validCivil at hv ⊢
    rw [← daysIn_pivotYear _ _ (by omega)]
    exact hv
  · rfl

/-! ## The decoder as a whole -/

theorem readColumns_short (buf : List Byte) (n : Nat) (h : buf.length < 11 * n) :
    readColumns buf n = .error (if buf.length = 0 then .EOF else .ErrUnexpectedEOF) := by
  have h1 : ¬ 11 * n ≤ buf.length := by omega
  unfold readColumns readFull
  by_cases h0 : buf.length = 0
  · rw [if_neg h1, if_pos h0, if_pos h0]
  · rw [if_neg h1, if_neg h0, if_neg h0]

theorem readColumns_enough (buf : List Byte) (n : Nat) (h : 11 * n ≤ buf.length) :
    readColumns buf n = .ok (cellsOf n (buf.take (11 * n)), buf.drop (11 * n)) := by
  unfold readColumns readFull
  rw [if_pos h]

/-- The decoder loop succeeds exactly when the buffer holds 11 bytes for every
announced cell, and otherwise fails with an end-of-file error. -/
theorem unmarshalLoop_error (ph : packetHeader) (lens : List Word16) :
    ∀ (idx : Nat) (buf : List Byte) (msgs : List Message),
      ((unmarshalLoop ph lens idx buf msgs).2 = none ↔ 11 * sumLengths lens ≤ buf.length) ∧
      ((unmarshalLoop ph lens idx buf msgs).2 = none ∨
        (unmarshalLoop ph lens idx buf msgs).2 = some .EOF ∨
        (unmarshalLoop ph lens idx buf msgs).2 = some .ErrUnexpectedEOF) := by
  induction lens with
  | nil => intro idx buf msgs; simp [unmarshalLoop, sumLengths]
  | cons w lens ih =>
    intro idx buf msgs
    by_cases hw : w.val = 0
    · simp only [unmarshalLoop, hw, if_true, sumLengths, Nat.zero_add]
      exact ih (idx + 1) buf msgs
    · by_cases hb : 11 * w.val ≤ buf.length
      · simp only [unmarshalLoop, hw, if_false, sumLengths, readColumns_enough buf _ hb]
        obtain ⟨h1, h2⟩ := ih (idx + 1) (buf.drop (11 * w.val))
          (msgs ++
            [{ Speed := ((((ph.SpeedAndMode.val.getD idx 0).val &&& 0xf0) >>> 4 : Nat) : Int)
               Mode := (((ph.SpeedAndMode.val.getD idx 0).val &&& 0x0f : Nat) : Int)
               Blink := bitSet ph.BlinkAttr idx
               Border := bitSet ph.BorderAttr idx
               Columns := cellsOf w.val (buf.take (11 * w.val)) }])
        refine ⟨?_, h2⟩
        rw [h1, List.length_drop]
        omega
      · simp only [unmarshalLoop, hw, if_false, sumLengths,
          readColumns_short buf _ (Nat.lt_of_not_le hb)]
        constructor
        · constructor
          · intro h; split_ifs at h
          · intro h; omega
        · right
          split_ifs
          · exact Or.inl rfl
          · exact Or.inr rfl

/-- The decoder on a buffer that starts with a written header. -/
theorem UnmarshalBinary_writeHeader (q : Packet) (ph : packetHeader) (rest : List Byte) :
    UnmarshalBinary q (writeHeader ph ++ rest) =
      match timeParse (sprintfTm ph.Tm) with
      | none => ({ q with Magic := ph.Magic, Timestamp := Time.zero }, some .ParseError)
      | some t =>
        ({ Magic := ph.Magic, Timestamp := t
           Messages := (unmarshalLoop ph ph.MessageLength.val 0 rest []).1 },
          (unmarshalLoop ph ph.MessageLength.val 0 rest []).2) := by
  unfold UnmarshalBinary
  rw [readHeader_writeHeader]

/-! ## Speed and mode nibbles -/

theorem speedModeByte_val (m : Message) (hs : 0 ≤ m.Speed ∧ m.Speed ≤ 15)
    (hm : (0 : Int) ≤ m.Mode ∧ m.Mode ≤ (15 : Int)) :
    (speedModeByte m).val = m.Speed.toNat * 16 + m.Mode.toNat := by
  unfold speedModeByte toByte
  rw [Fin.val_add]
  simp only []
  omega

theorem nibbles (s mo : Nat) (hs : s < 16) (hm : mo < 16) :
    ((s * 16 + mo) &&& 0xf0) >>> 4 = s ∧ (s * 16 + mo) &&& 0x0f = mo ∧
      (s <<< 4 ||| mo) = s * 16 + mo := by
  have h : ∀ s < 16, ∀ mo < 16, ((s * 16 + mo) &&& 0xf0) >>> 4 = s ∧
      (s * 16 + mo) &&& 0x0f = mo ∧ (s <<< 4 ||| mo) = s * 16 + mo := by decide
  exact h s hs mo hm

theorem getElem?_append_replicate {α : Type} (l : List α) (k j : Nat) (z x : α)
    (h : l[j]? = some x) : (l ++ List.replicate k z)[j]? = some x := by
  have hj : j < l.length := by
    by_contra hc
    rw [List.getElem?_eq_none (by omega)] at h
    cases h
  rw [List.getElem?_append_left hj, h]

theorem getElem?_append_replicate_ge {α : Type} (l : List α) (k j : Nat) (z : α)
    (h1 : l.length ≤ j) (h2 : j < l.length + k) :
    (l ++ List.replicate k z)[j]? = some z := by
  rw [List.getElem?_append_right h1, List.getElem?_replicate_of_lt (by omega)]

/-- After encoding, every slot of the header describes its message. -/
theorem slotDescribes_of_marshal (p : Packet) (ph : packetHeader)
    (hn : p.Messages.length ≤ 8)
    (h4 : ph.SpeedAndMode.val = p.Messages.map speedModeByte ++
      List.replicate (8 - p.Messages.length) 0)
    (h6 : ∀ j, ph.BlinkAttr.val.testBit j = true ↔
      ∃ m, p.Messages[j]? = some m ∧ m.Blink = true)
    (h7 : ∀ j, ph.BorderAttr.val.testBit j = true ↔
      ∃ m, p.Messages[j]? = some m ∧ m.Border = true)
    (j : Nat) (m : Message) (hj : p.Messages[j]? = some m)
    (hs : 0 ≤ m.Speed ∧ m.Speed ≤ 15) (hm : (0 : Int) ≤ m.Mode ∧ m.Mode ≤ (15 : Int)) :
    slotDescribes ph j m := by
  have hjl : j < p.Messages.length := by
    by_contra hc
    rw [List.getElem?_eq_none (by omega)] at hj
    cases hj
  have hb : ph.SpeedAndMode.val.getD j 0 = speedModeByte m := by
    rw [List.getD_eq_getElem?_getD, h4,
      getElem?_append_replicate _ _ j 0 (speedModeByte m) (by simp [hj])]
    rfl
  obtain ⟨n1, n2, _⟩ := nibbles m.Speed.toNat m.Mode.toNat (by omega) (by omega)
  refine ⟨?_, ?_, ?_, ?_⟩
  · rw [hb, speedModeByte_val m hs hm, n1]; omega
  · rw [hb, speedModeByte_val m hs hm, n2]; omega
  · rw [bitSet_eq_testBit _ _ (by omega), Bool.eq_iff_iff, h6 j]
    simp [hj]
  · rw [bitSet_eq_testBit _ _ (by omega), Bool.eq_iff_iff, h7 j]
    simp [hj]

/-! ## The timestamp bytes of an encoded packet -/

theorem initHeader_tm (p : Packet) (hy : 0 ≤ p.Timestamp.year) :
    ((initHeader p).Tm.Yr.val : Int) = p.Timestamp.year % 100 ∧
      (initHeader p).Tm.Mo.val = p.Timestamp.month ∧
      (initHeader p).Tm.Dy.val = p.Timestamp.day ∧
      (initHeader p).Tm.Hr.val = p.Timestamp.hour ∧
      (initHeader p).Tm.Mi.val = p.Timestamp.minute ∧
      (initHeader p).Tm.Sc.val = p.Timestamp.second := by
  have hv := p.Timestamp.valid
  unfold validCivil at hv
  have := daysIn_le p.Timestamp.month p.Timestamp.year
  have ht : Int.tmod p.Timestamp.year 100 = p.Timestamp.year % 100 :=
    Int.tmod_eq_emod hy (by decide)
  simp only [initHeader, toByte, byteOfNat, ht]
  refine ⟨?_, ?_, ?_, ?_, ?_, ?_⟩ <;> omega

theorem validTm_initHeader (p : Packet) (hy : 0 ≤ p.Timestamp.year) :
    validTm (initHeader p).Tm := by
  obtain ⟨h1, h2, h3, h4, h5, h6⟩ := initHeader_tm p hy
  have hv := p.Timestamp.valid
  unfold validCivil at hv
  have hl : daysIn p.Timestamp.month p.Timestamp.year ≤
      daysIn p.Timestamp.month (2000 + ((initHeader p).Tm.Yr.val : Int)) := by
    apply daysIn_le_of_leap
    rw [isLeap_iff, isLeap_iff, h1]
    omega
  unfold validTm validCivil
  rw [h2, h3, h4, h5, h6]
  refine ⟨by omega, ?_⟩
  omega

/-! ## C1: round trip of the messages -/

/-- C1 as amended: for every packet with at most 8 messages, each with at
least one and fewer than 65536 cells, speed in 0..15 and mode in 0..8, and a
timestamp with a non-negative year, decoding the encoding succeeds and gives
the same list of messages. -/
theorem roundtrip_messages (p q : Packet) (hn : p.Messages.length ≤ 8)
    (hm : ∀ m ∈ p.Messages, 1 ≤ m.Columns.length ∧ m.Columns.length < 65536 ∧
      0 ≤ m.Speed ∧ m.Speed ≤ 15 ∧ (0 : Int) ≤ m.Mode ∧ m.Mode ≤ (8 : Int))
    (hy : 0 ≤ p.Timestamp.year) :
    ∃ data, MarshalBinary p = .ok data ∧ (UnmarshalBinary q data).2 = none ∧
      (UnmarshalBinary q data).1.Messages = p.Messages := by
  obtain ⟨ph, h1, _, h3, h4, h5, h6, h7⟩ := MarshalBinary_spec p hn
  obtain ⟨t, ht, _⟩ := timeParse_of_validTm ph.Tm (h3 ▸ validTm_initHeader p hy)
  have hloop := unmarshalLoop_roundtrip ph p.Messages 0 (List.replicate (8 - p.Messages.length) 0)
    (List.replicate (padLength (64 + 11 * totalCells p.Messages)) 0) []
    (fun j m hj => by
      have hmem := List.getElem?_mem hj
      obtain ⟨_, _, a1, a2, a3, a4⟩ := hm m hmem
      rw [Nat.zero_add]
      exact slotDescribes_of_marshal p ph hn h4 h6 h7 j m hj ⟨a1, a2⟩ ⟨a3, by omega⟩)
    (fun m hmem => ⟨(hm m hmem).1, (hm m hmem).2.1⟩)
    (fun z hz => by rw [List.eq_of_mem_replicate hz]; rfl)
  refine ⟨_, h1, ?_, ?_⟩ <;>
  · rw [List.append_assoc, UnmarshalBinary_writeHeader, ht]
    simp only [h5, hloop, List.nil_append]

theorem roundtrip_messages_witness :
    (samplePacket.Messages.length ≤ 8 ∧
      (∀ m ∈ samplePacket.Messages, 1 ≤ m.Columns.length ∧ m.Columns.length < 65536 ∧
        0 ≤ m.Speed ∧ m.Speed ≤ 15 ∧ (0 : Int) ≤ m.Mode ∧ m.Mode ≤ (8 : Int)) ∧
      0 ≤ samplePacket.Timestamp.year) ∧
    ∃ data, MarshalBinary samplePacket = .ok data ∧
      (UnmarshalBinary emptyPacket data).2 = none ∧
      (UnmarshalBinary emptyPacket data).1.Messages = samplePacket.Messages :=
  ⟨⟨by decide, by decide, by decide⟩,
    roundtrip_messages samplePacket emptyPacket (by decide) (by decide) (by decide)⟩

/-- C1 as stated fails: a message of 65536 cells (at least one cell, speed and
mode in range) gets the length field 0 and decodes to no message at all; and a
packet stamped in the year -5 gets the year byte 251, which the decoder
rejects. -/
theorem roundtrip_messages_counterexample :
    (widePacket.Messages.length ≤ 8 ∧
      (∀ m ∈ widePacket.Messages, 1 ≤ m.Columns.length ∧
        0 ≤ m.Speed ∧ m.Speed ≤ 15 ∧ (0 : Int) ≤ m.Mode ∧ m.Mode ≤ (8 : Int)) ∧
      ∃ data, MarshalBinary widePacket = .ok data ∧
        (UnmarshalBinary emptyPacket data).1.Messages = [] ∧
        (UnmarshalBinary emptyPacket data).1.Messages ≠ widePacket.Messages) ∧
    (ancientPacket.Messages.length ≤ 8 ∧
      (∀ m ∈ ancientPacket.Messages, 1 ≤ m.Columns.length ∧
        0 ≤ m.Speed ∧ m.Speed ≤ 15 ∧ (0 : Int) ≤ m.Mode ∧ m.Mode ≤ (8 : Int)) ∧
      ∃ data, MarshalBinary ancientPacket = .ok data ∧
        (UnmarshalBinary emptyPacket data).2 = some .ParseError) := by
  refine ⟨⟨by decide, ?_, ?_⟩, ⟨by decide, by decide, ?_⟩⟩
  · intro m hmem
    have e : m = wideMessage := List.mem_singleton.mp hmem
    subst e
    refine ⟨?_, by decide, by decide, by decide, by decide⟩
    show 1 ≤ (List.replicate 65536 zeroCell).length
    rw [List.length_replicate]
    decide
  · obtain ⟨ph, h1, _, h3, _, h5, _, _⟩ := MarshalBinary_spec widePacket (by decide)
    have hv : validTm ph.Tm := by rw [h3]; decide
    obtain ⟨t, ht, _⟩ := timeParse_of_validTm ph.Tm hv
    have hz : ∀ z ∈ ph.MessageLength.val, z.val = 0 := by
      have hw : toWord16 wideMessage.Columns.length = 0 := by
        show toWord16 (List.replicate 65536 zeroCell).length = 0
        rw [List.length_replicate]
        rfl
      rw [h5]
      intro z hz
      have hz2 : z ∈ toWord16 wideMessage.Columns.length :: List.replicate 7 0 := hz
      rw [hw, List.mem_cons] at hz2
      rcases hz2 with rfl | hz2
      · rfl
      · rw [List.eq_of_mem_replicate hz2]; rfl
    have hloop := unmarshalLoop_zeros ph ph.MessageLength.val 0
      (bodyBytes widePacket.Messages ++
        List.replicate (padLength (64 + 11 * totalCells widePacket.Messages)) 0) [] hz
    have hres : (UnmarshalBinary emptyPacket (writeHeader ph ++ bodyBytes widePacket.Messages ++
        List.replicate (padLength (64 + 11 * totalCells widePacket.Messages)) 0)).1.Messages
          = [] := by
      rw [List.append_assoc, UnmarshalBinary_writeHeader, ht]
      simp only [hloop]
    refine ⟨_, h1, hres, ?_⟩
    rw [hres]
    exact (List.cons_ne_nil _ _).symm
  · obtain ⟨ph, h1, _, h3, _, _, _, _⟩ := MarshalBinary_spec ancientPacket (by decide)
    have hv : ¬ validTm ph.Tm := by rw [h3]; decide
    refine ⟨_, h1, ?_⟩
    rw [List.append_assoc, UnmarshalBinary_writeHeader, timeParse_of_not_validTm ph.Tm hv]

/-! ## C2: round trip of the magic and the timestamp -/

theorem sumLengths_replicate_zero (k : Nat) : sumLengths (List.replicate k 0) = 0 := by
  induction k with
  | zero => rfl
  | succ k ih => simp [List.replicate_succ, sumLengths, ih]

theorem sumLengths_marshal (ms : List Message) (k : Nat) :
    sumLengths (ms.map (fun m => toWord16 m.Columns.length) ++ List.replicate k 0) ≤
      totalCells ms := by
  induction ms with
  | nil => simp [sumLengths_replicate_zero, totalCells]
  | cons m ms ih =>
    have h : (toWord16 m.Columns.length).val ≤ m.Columns.length := Nat.mod_le _ _
    rw [List.map_cons, List.cons_append, sumLengths, totalCells]
    omega

/-- C2: for every packet with at most 8 messages, each with at least one
cell, and a timestamp whose year is non-negative, decoding the encoding
succeeds and gives the same magic bytes and a timestamp with the same month,
day, hour, minute and second and a year congruent modulo 100. -/
theorem roundtrip_magic_timestamp (p q : Packet) (hn : p.Messages.length ≤ 8)
    (_hc : ∀ m ∈ p.Messages, 1 ≤ m.Columns.length) (hy : 0 ≤ p.Timestamp.year) :
    ∃ data, MarshalBinary p = .ok data ∧ (UnmarshalBinary q data).2 = none ∧
      (UnmarshalBinary q data).1.Magic = p.Magic ∧
      (UnmarshalBinary q data).1.Timestamp.month = p.Timestamp.month ∧
      (UnmarshalBinary q data).1.Timestamp.day = p.Timestamp.day ∧
      (UnmarshalBinary q data).1.Timestamp.hour = p.Timestamp.hour ∧
      (UnmarshalBinary q data).1.Timestamp.minute = p.Timestamp.minute ∧
      (UnmarshalBinary q data).1.Timestamp.second = p.Timestamp.second ∧
      (UnmarshalBinary q data).1.Timestamp.year % 100 = p.Timestamp.year % 100 := by
  obtain ⟨ph, h1, h2, h3, _, h5, _, _⟩ := MarshalBinary_spec p hn
  obtain ⟨t, ht, t1, t2, t3, t4, t5, t6⟩ :=
    timeParse_of_validTm ph.Tm (h3 ▸ validTm_initHeader p hy)
  obtain ⟨y1, y2, y3, y4, y5, y6⟩ := initHeader_tm p hy
  rw [h3] at t1 t2 t3 t4 t5 t6
  have hloop := (unmarshalLoop_error ph ph.MessageLength.val 0
    (bodyBytes p.Messages ++ List.replicate (padLength (64 + 11 * totalCells p.Messages)) 0)
    []).1.2 (by
      have := sumLengths_marshal p.Messages (8 - p.Messages.length)
      rw [h5, List.length_append, bodyBytes_length]
      omega)
  have hres : UnmarshalBinary q (writeHeader ph ++ bodyBytes p.Messages ++
      List.replicate (padLength (64 + 11 * totalCells p.Messages)) 0) =
      ({ Magic := ph.Magic, Timestamp := t
         Messages := (unmarshalLoop ph ph.MessageLength.val 0 (bodyBytes p.Messages ++
          List.replicate (padLength (64 + 11 * totalCells p.Messages)) 0) []).1 }, none) := by
    rw [List.append_assoc, UnmarshalBinary_writeHeader, ht]
    simp only [hloop]
  refine ⟨_, h1, ?_⟩
  rw [hres]
  refine ⟨rfl, h2, ?_, ?_, ?_, ?_, ?_, ?_⟩
  · exact t2.trans y2
  · exact t3.trans y3
  · exact t4.trans y4
  · exact t5.trans y5
  · exact t6.trans y6
  · show t.year % 100 = p.Timestamp.year % 100
    rw [t1]
    unfold pivotYear
    split <;> omega

theorem roundtrip_magic_timestamp_witness :
    (samplePacket.Messages.length ≤ 8 ∧ (∀ m ∈ samplePacket.Messages, 1 ≤ m.Columns.length) ∧
      0 ≤ samplePacket.Timestamp.year) ∧
    ∃ data, MarshalBinary samplePacket = .ok data ∧
      (UnmarshalBinary emptyPacket data).2 = none ∧
      (UnmarshalBinary emptyPacket data).1.Magic = samplePacket.Magic ∧
      (UnmarshalBinary emptyPacket data).1.Timestamp.month = samplePacket.Timestamp.month ∧
      (UnmarshalBinary emptyPacket data).1.Timestamp.day = samplePacket.Timestamp.day ∧
      (UnmarshalBinary emptyPacket data).1.Timestamp.hour = samplePacket.Timestamp.hour ∧
      (UnmarshalBinary emptyPacket data).1.Timestamp.minute = samplePacket.Timestamp.minute ∧
      (UnmarshalBinary emptyPacket data).1.Timestamp.second = samplePacket.Timestamp.second ∧
      (UnmarshalBinary emptyPacket data).1.Timestamp.year % 100 =
        samplePacket.Timestamp.year % 100 :=
  ⟨⟨by decide, by decide, by decide⟩,
    roundtrip_magic_timestamp samplePacket emptyPacket (by decide) (by decide) (by decide)⟩

/-! ## C3: padding -/

/-- C3: for every packet with at most 8 messages, the encoded buffer has a
length that is a multiple of 64 and is at least 64. -/
theorem padding_invariant (p : Packet) (hn : p.Messages.length ≤ 8) :
    ∃ data, MarshalBinary p = .ok data ∧ data.length % 64 = 0 ∧ 64 ≤ data.length := by
  obtain ⟨ph, h1, _⟩ := MarshalBinary_spec p hn
  refine ⟨_, h1, ?_, ?_⟩
  · simp only [List.length_append, writeHeader_length, bodyBytes_length, List.length_replicate,
      padLength]
    split <;> omega
  · simp only [List.length_append, writeHeader_length]
    omega

theorem padding_invariant_witness :
    samplePacket.Messages.length ≤ 8 ∧
      ∃ data, MarshalBinary samplePacket = .ok data ∧ data.length % 64 = 0 ∧ 64 ≤ data.length :=
  ⟨by decide, padding_invariant samplePacket (by decide)⟩

/-! ## The layout of the header -/

/-- The 64 bytes of a written header, one by one. -/
theorem writeHeader_explicit (ph : packetHeader) :
    ∃ a0 a1 a2 a3 a4 a5 s0 s1 s2 s3 s4 s5 s6 s7 w0 w1 w2 w3 w4 w5 w6 w7,
      ph.Magic.val = [a0, a1, a2, a3, a4, a5] ∧
      ph.SpeedAndMode.val = [s0, s1, s2, s3, s4, s5, s6, s7] ∧
      ph.MessageLength.val = [w0, w1, w2, w3, w4, w5, w6, w7] ∧
      writeHeader ph = [a0, a1, a2, a3, a4, a5, ph.BlinkAttr, ph.BorderAttr,
        s0, s1, s2, s3, s4, s5, s6, s7,
        byteOfNat (w0.val / 256), byteOfNat w0.val, byteOfNat (w1.val / 256), byteOfNat w1.val,
        byteOfNat (w2.val / 256), byteOfNat w2.val, byteOfNat (w3.val / 256), byteOfNat w3.val,
        byteOfNat (w4.val / 256), byteOfNat w4.val, byteOfNat (w5.val / 256), byteOfNat w5.val,
        byteOfNat (w6.val / 256), byteOfNat w6.val, byteOfNat (w7.val / 256), byteOfNat w7.val,
        0, 0, 0, 0, 0, 0,
        ph.Tm.Yr, ph.Tm.Mo, ph.Tm.Dy, ph.Tm.Hr, ph.Tm.Mi, ph.Tm.Sc,
        0, 0, 0, 0, 0, 0, 0, 0, 0, 0, 0, 0, 0, 0, 0, 0, 0, 0, 0, 0] := by
  obtain ⟨⟨mg, hmg⟩, bl, bo, ⟨sm, hsm⟩, ⟨ml, hml⟩, tm⟩ := ph
  obtain ⟨a0, a1, a2, a3, a4, a5, rfl⟩ := list_length_six mg hmg
  obtain ⟨s0, s1, s2, s3, s4, s5, s6, s7, rfl⟩ := list_length_eight sm hsm
  obtain ⟨w0, w1, w2, w3, w4, w5, w6, w7, rfl⟩ := list_length_eight ml hml
  exact ⟨a0, a1, a2, a3, a4, a5, s0, s1, s2, s3, s4, s5, s6, s7, w0, w1, w2, w3, w4, w5, w6, w7,
    rfl, rfl, rfl, rfl⟩

theorem header_getElem? (ph : packetHeader) (rest : List Byte) (i : Nat) (h : i < 64) :
    (writeHeader ph ++ rest)[i]? = (writeHeader ph)[i]? :=
  List.getElem?_append_left (by rw [writeHeader_length]; exact h)

/-! ## C4: the fixed fields of the header -/

/-- C4 as amended: for every packet with at most 8 messages and a timestamp
with a non-negative year, bytes 0..5 of the encoding are the magic, bytes
32..37 and 44..63 are zero, bytes 38..43 are year mod 100, month (1..12), day,
hour, minute, second, and the body starts at offset 64. -/
theorem header_fixed_fields (p : Packet) (hn : p.Messages.length ≤ 8)
    (hy : 0 ≤ p.Timestamp.year) :
    ∃ data, MarshalBinary p = .ok data ∧ data.take 6 = p.Magic.val ∧
      (∀ i, (32 ≤ i ∧ i < 38) ∨ (44 ≤ i ∧ i < 64) → data[i]? = some 0) ∧
      (∃ yr mo dy hr mi sc : Byte, (data.drop 38).take 6 = [yr, mo, dy, hr, mi, sc] ∧
        (yr.val : Int) = p.Timestamp.year % 100 ∧
        mo.val = p.Timestamp.month ∧ 1 ≤ mo.val ∧ mo.val ≤ 12 ∧
        dy.val = p.Timestamp.day ∧ hr.val = p.Timestamp.hour ∧
        mi.val = p.Timestamp.minute ∧ sc.val = p.Timestamp.second) ∧
      (data.drop 64).take (11 * totalCells p.Messages) = bodyBytes p.Messages := by
  obtain ⟨ph, h1, h2, h3, _⟩ := MarshalBinary_spec p hn
  obtain ⟨y1, y2, y3, y4, y5, y6⟩ := initHeader_tm p hy
  have hv := p.Timestamp.valid
  unfold validCivil at hv
  obtain ⟨a0, a1, a2, a3, a4, a5, s0, s1, s2, s3, s4, s5, s6, s7, w0, w1, w2, w3, w4, w5, w6, w7,
    e1, _, _, e4⟩ := writeHeader_explicit ph
  refine ⟨_, h1, ?_, ?_, ?_, ?_⟩
  · rw [← h2, e1, e4]; rfl
  · intro i hi
    rw [List.append_assoc, header_getElem? ph _ i (by omega), e4]
    rcases hi with ⟨hi1, hi2⟩ | ⟨hi1, hi2⟩ <;> interval_cases i <;> rfl
  · refine ⟨ph.Tm.Yr, ph.Tm.Mo, ph.Tm.Dy, ph.Tm.Hr, ph.Tm.Mi, ph.Tm.Sc, ?_, ?_⟩
    · rw [e4]; rfl
    · rw [h3]
      exact ⟨y1, y2, by omega, by omega, y3, y4, y5, y6⟩
  · rw [List.append_assoc, List.drop_left' (writeHeader_length ph),
      List.take_left' (bodyBytes_length p.Messages)]

theorem header_fixed_fields_witness :
    (samplePacket.Messages.length ≤ 8 ∧ 0 ≤ samplePacket.Timestamp.year) ∧
    ∃ data, MarshalBinary samplePacket = .ok data ∧ data.take 6 = samplePacket.Magic.val ∧
      (∀ i, (32 ≤ i ∧ i < 38) ∨ (44 ≤ i ∧ i < 64) → data[i]? = some 0) ∧
      (∃ yr mo dy hr mi sc : Byte, (data.drop 38).take 6 = [yr, mo, dy, hr, mi, sc] ∧
        (yr.val : Int) = samplePacket.Timestamp.year % 100 ∧
        mo.val = samplePacket.Timestamp.month ∧ 1 ≤ mo.val ∧ mo.val ≤ 12 ∧
        dy.val = samplePacket.Timestamp.day ∧ hr.val = samplePacket.Timestamp.hour ∧
        mi.val = samplePacket.Timestamp.minute ∧ sc.val = samplePacket.Timestamp.second) ∧
      (data.drop 64).take (11 * totalCells samplePacket.Messages) =
        bodyBytes samplePacket.Messages :=
  ⟨⟨by decide, by decide⟩, header_fixed_fields samplePacket (by decide) (by decide)⟩

/-- C4 as stated fails: for the packet stamped in the year -5, byte 38 of the
encoding is 251, which is neither the remainder -5 of Go's `%` nor the
residue 95 of the year modulo 100. -/
theorem header_fixed_fields_counterexample :
    ancientPacket.Messages.length ≤ 8 ∧
      ∃ data, MarshalBinary ancientPacket = .ok data ∧ data[38]? = some 251 ∧
        Int.tmod ancientPacket.Timestamp.year 100 = -5 ∧
        ancientPacket.Timestamp.year % 100 = 95 := by
  refine ⟨by decide, ?_⟩
  obtain ⟨ph, h1, _, h3, _⟩ := MarshalBinary_spec ancientPacket (by decide)
  obtain ⟨a0, a1, a2, a3, a4, a5, s0, s1, s2, s3, s4, s5, s6, s7, w0, w1, w2, w3, w4, w5, w6, w7,
    _, _, _, e4⟩ := writeHeader_explicit ph
  refine ⟨_, h1, ?_, by decide, by decide⟩
  rw [List.append_assoc, header_getElem? ph _ 38 (by decide), e4]
  show some ph.Tm.Yr = some 251
  rw [h3]
  rfl

theorem writeHeader_speedAndMode (ph : packetHeader) (i : Nat) (h : i < 8) :
    (writeHeader ph)[8 + i]? = ph.SpeedAndMode.val[i]? := by
  obtain ⟨a0, a1, a2, a3, a4, a5, s0, s1, s2, s3, s4, s5, s6, s7, w0, w1, w2, w3, w4, w5, w6, w7,
    _, e2, _, e4⟩ := writeHeader_explicit ph
  rw [e2, e4]
  interval_cases i <;> rfl

theorem writeHeader_messageLength (ph : packetHeader) (i : Nat) (h : i < 8) :
    (writeHeader ph)[16 + 2 * i]? =
        (ph.MessageLength.val[i]?).map (fun w => byteOfNat (w.val / 256)) ∧
      (writeHeader ph)[17 + 2 * i]? =
        (ph.MessageLength.val[i]?).map (fun w => byteOfNat w.val) := by
  obtain ⟨a0, a1, a2, a3, a4, a5, s0, s1, s2, s3, s4, s5, s6, s7, w0, w1, w2, w3, w4, w5, w6, w7,
    _, _, e3, e4⟩ := writeHeader_explicit ph
  rw [e3, e4]
  interval_cases i <;> exact ⟨rfl, rfl⟩

theorem writeHeader_attr (ph : packetHeader) :
    (writeHeader ph)[6]? = some ph.BlinkAttr ∧ (writeHeader ph)[7]? = some ph.BorderAttr := by
  obtain ⟨a0, a1, a2, a3, a4, a5, s0, s1, s2, s3, s4, s5, s6, s7, w0, w1, w2, w3, w4, w5, w6, w7,
    _, _, _, e4⟩ := writeHeader_explicit ph
  rw [e4]
  exact ⟨rfl, rfl⟩

/-! ## C5: the attribute bitmasks -/

/-- C5: for every packet with at most 8 messages and every slot `i` in 0..7,
bit `i` of byte 6 of the encoding is set exactly when message `i` exists and
blinks, and bit `i` of byte 7 exactly when message `i` exists and has a
border. -/
theorem attribute_bitmasks (p : Packet) (hn : p.Messages.length ≤ 8) :
    ∃ data, MarshalBinary p = .ok data ∧ ∃ b6 b7 : Byte,
      data[6]? = some b6 ∧ data[7]? = some b7 ∧
      ∀ i, i < 8 →
        (b6.val.testBit i = true ↔ ∃ m, p.Messages[i]? = some m ∧ m.Blink = true) ∧
        (b7.val.testBit i = true ↔ ∃ m, p.Messages[i]? = some m ∧ m.Border = true) := by
  obtain ⟨ph, h1, _, _, _, _, h6, h7⟩ := MarshalBinary_spec p hn
  refine ⟨_, h1, ph.BlinkAttr, ph.BorderAttr, ?_, ?_, fun i _ => ⟨h6 i, h7 i⟩⟩
  · rw [List.append_assoc, header_getElem? ph _ 6 (by decide)]
    exact (writeHeader_attr ph).1
  · rw [List.append_assoc, header_getElem? ph _ 7 (by decide)]
    exact (writeHeader_attr ph).2

theorem attribute_bitmasks_witness :
    samplePacket.Messages.length ≤ 8 ∧
    ∃ data, MarshalBinary samplePacket = .ok data ∧ ∃ b6 b7 : Byte,
      data[6]? = some b6 ∧ data[7]? = some b7 ∧
      ∀ i, i < 8 →
        (b6.val.testBit i = true ↔ ∃ m, samplePacket.Messages[i]? = some m ∧ m.Blink = true) ∧
        (b7.val.testBit i = true ↔
          ∃ m, samplePacket.Messages[i]? = some m ∧ m.Border = true) :=
  ⟨by decide, attribute_bitmasks samplePacket (by decide)⟩

/-! ## C6: speed and mode -/

/-- C6: for every packet with at most 8 messages whose speeds and modes are
in 0..15, byte `8 + i` of the encoding is `(speed_i << 4) | mode_i` for every
message `i` (0x50 for speed 5 and mode ScrollLeft) and 0 for every unused
slot. -/
theorem speed_mode_packing (p : Packet) (hn : p.Messages.length ≤ 8)
    (hr : ∀ m ∈ p.Messages, 0 ≤ m.Speed ∧ m.Speed ≤ 15 ∧ 0 ≤ m.Mode ∧ m.Mode ≤ 15) :
    ∃ data, MarshalBinary p = .ok data ∧ ∀ i, i < 8 → ∃ b : Byte, data[8 + i]? = some b ∧
      (∀ m, p.Messages[i]? = some m →
        b.val = (m.Speed.toNat <<< 4 ||| m.Mode.toNat) ∧
        (m.Speed = 5 → m.Mode = ModeScrollLeft → b.val = 0x50)) ∧
      (p.Messages.length ≤ i → b.val = 0) := by
  obtain ⟨ph, h1, _, _, h4, _⟩ := MarshalBinary_spec p hn
  refine ⟨_, h1, fun i hi => ?_⟩
  rw [List.append_assoc, header_getElem? ph _ (8 + i) (by omega),
    writeHeader_speedAndMode ph i hi, h4]
  by_cases hlt : i < p.Messages.length
  · obtain ⟨m, hm⟩ : ∃ m, p.Messages[i]? = some m := ⟨p.Messages[i], List.getElem?_eq_getElem hlt⟩
    refine ⟨speedModeByte m, getElem?_append_replicate _ _ i 0 _ (by simp [hm]), ?_, ?_⟩
    · intro m2 hm2
      rw [hm] at hm2
      injection hm2 with hm2
      subst hm2
      obtain ⟨a1, a2, a3, a4⟩ := hr m (List.getElem?_mem hm)
      obtain ⟨_, _, n3⟩ := nibbles m.Speed.toNat m.Mode.toNat (by omega) (by omega)
      rw [speedModeByte_val m ⟨a1, a2⟩ ⟨a3, a4⟩, n3]
      refine ⟨rfl, ?_⟩
      intro e1 e2
      rw [e1, e2]
      rfl
    · intro hge; omega
  · refine ⟨0, getElem?_append_replicate_ge _ _ i 0 (by simp; omega) (by simp; omega), ?_, ?_⟩
    · intro m hm
      rw [List.getElem?_eq_none (by omega)] at hm
      cases hm
    · intro _; rfl

theorem speed_mode_packing_witness :
    (samplePacket.Messages.length ≤ 8 ∧
      ∀ m ∈ samplePacket.Messages, 0 ≤ m.Speed ∧ m.Speed ≤ 15 ∧ 0 ≤ m.Mode ∧ m.Mode ≤ 15) ∧
    ∃ data, MarshalBinary samplePacket = .ok data ∧ ∀ i, i < 8 → ∃ b : Byte,
      data[8 + i]? = some b ∧
      (∀ m, samplePacket.Messages[i]? = some m →
        b.val = (m.Speed.toNat <<< 4 ||| m.Mode.toNat) ∧
        (m.Speed = 5 → m.Mode = ModeScrollLeft → b.val = 0x50)) ∧
      (samplePacket.Messages.length ≤ i → b.val = 0) :=
  ⟨⟨by decide, by decide⟩, speed_mode_packing samplePacket (by decide) (by decide)⟩

/-! ## C7: the table of message lengths -/

/-- C7: for every packet with at most 8 messages, each with fewer than 65536
cells, bytes `16 + 2i` and `17 + 2i` of the encoding are the high and the low
byte of the number of cells of message `i`, and both 0 for every unused
slot. -/
theorem message_length_table (p : Packet) (hn : p.Messages.length ≤ 8)
    (hc : ∀ m ∈ p.Messages, m.Columns.length < 65536) :
    ∃ data, MarshalBinary p = .ok data ∧ ∀ i, i < 8 → ∃ hi lo : Byte,
      data[16 + 2 * i]? = some hi ∧ data[17 + 2 * i]? = some lo ∧
      (∀ m, p.Messages[i]? = some m →
        hi.val = m.Columns.length / 256 ∧ lo.val = m.Columns.length % 256 ∧
        hi.val * 256 + lo.val = m.Columns.length) ∧
      (p.Messages.length ≤ i → hi.val = 0 ∧ lo.val = 0) := by
  obtain ⟨ph, h1, _, _, _, h5, _⟩ := MarshalBinary_spec p hn
  refine ⟨_, h1, fun i hi => ?_⟩
  obtain ⟨e1, e2⟩ := writeHeader_messageLength ph i hi
  rw [List.append_assoc, header_getElem? ph _ (16 + 2 * i) (by omega),
    header_getElem? ph _ (17 + 2 * i) (by omega), e1, e2, h5]
  by_cases hlt : i < p.Messages.length
  · obtain ⟨m, hm⟩ : ∃ m, p.Messages[i]? = some m := ⟨p.Messages[i], List.getElem?_eq_getElem hlt⟩
    have hw := getElem?_append_replicate (p.Messages.map (fun m => toWord16 m.Columns.length))
      (8 - p.Messages.length) i 0 (toWord16 m.Columns.length) (by simp [hm])
    rw [hw]
    refine ⟨_, _, rfl, rfl, ?_, ?_⟩
    · intro m2 hm2
      rw [hm] at hm2
      injection hm2 with hm2
      subst hm2
      have := hc m (List.getElem?_mem hm)
      simp only [byteOfNat, toWord16]
      omega
    · intro hge; omega
  · have hw := getElem?_append_replicate_ge (p.Messages.map (fun m => toWord16 m.Columns.length))
      (8 - p.Messages.length) i 0 (by simp; omega) (by simp; omega)
    rw [hw]
    refine ⟨_, _, rfl, rfl, ?_, ?_⟩
    · intro m hm
      rw [List.getElem?_eq_none (by omega)] at hm
      cases hm
    · intro _; exact ⟨rfl, rfl⟩

theorem message_length_table_witness :
    (samplePacket.Messages.length ≤ 8 ∧ ∀ m ∈ samplePacket.Messages, m.Columns.length < 65536) ∧
    ∃ data, MarshalBinary samplePacket = .ok data ∧ ∀ i, i < 8 → ∃ hi lo : Byte,
      data[16 + 2 * i]? = some hi ∧ data[17 + 2 * i]? = some lo ∧
      (∀ m, samplePacket.Messages[i]? = some m →
        hi.val = m.Columns.length / 256 ∧ lo.val = m.Columns.length % 256 ∧
        hi.val * 256 + lo.val = m.Columns.length) ∧
      (samplePacket.Messages.length ≤ i → hi.val = 0 ∧ lo.val = 0) :=
  ⟨⟨by decide, by decide⟩, message_length_table samplePacket (by decide) (by decide)⟩

/-! ## C8: the body and the exact length -/

/-- C8: for every packet with at most 8 messages and `N` cells in total, the
bytes of the encoding from offset 64 to `64 + 11N - 1` are the cells of the
messages in order, every later byte is zero, and the length is
`64 * ceil((64 + 11N) / 64)`; with one cell in all that is 128 bytes. -/
theorem body_layout (p : Packet) (hn : p.Messages.length ≤ 8) :
    ∃ data, MarshalBinary p = .ok data ∧
      (data.drop 64).take (11 * totalCells p.Messages) = bodyBytes p.Messages ∧
      (∀ i, 64 + 11 * totalCells p.Messages ≤ i → i < data.length → data[i]? = some 0) ∧
      data.length = 64 * ((64 + 11 * totalCells p.Messages + 63) / 64) ∧
      (totalCells p.Messages = 1 → data.length = 128) := by
  obtain ⟨ph, h1, _⟩ := MarshalBinary_spec p hn
  have hlen : (writeHeader ph ++ bodyBytes p.Messages ++
      List.replicate (padLength (64 + 11 * totalCells p.Messages)) 0).length =
      64 * ((64 + 11 * totalCells p.Messages + 63) / 64) := by
    simp only [List.length_append, writeHeader_length, bodyBytes_length, List.length_replicate,
      padLength]
    split <;> omega
  refine ⟨_, h1, ?_, ?_, hlen, ?_⟩
  · rw [List.append_assoc, List.drop_left' (writeHeader_length ph),
      List.take_left' (bodyBytes_length p.Messages)]
  · intro i h1 h2
    have hl : (writeHeader ph ++ bodyBytes p.Messages).length =
        64 + 11 * totalCells p.Messages := by
      rw [List.length_append, writeHeader_length, bodyBytes_length]
    rw [List.getElem?_append_right (by omega)]
    rw [List.length_append, List.length_replicate, hl] at h2
    exact List.getElem?_replicate_of_lt (by omega)
  · intro h
    rw [hlen, h]

theorem body_layout_witness :
    samplePacket.Messages.length ≤ 8 ∧
    ∃ data, MarshalBinary samplePacket = .ok data ∧
      (data.drop 64).take (11 * totalCells samplePacket.Messages) =
        bodyBytes samplePacket.Messages ∧
      (∀ i, 64 + 11 * totalCells samplePacket.Messages ≤ i → i < data.length →
        data[i]? = some 0) ∧
      data.length = 64 * ((64 + 11 * totalCells samplePacket.Messages + 63) / 64) ∧
      (totalCells samplePacket.Messages = 1 → data.length = 128) :=
  ⟨by decide, body_layout samplePacket (by decide)⟩

/-! ## C9: truncated header -/

/-- C9: for every buffer of fewer than 64 bytes, the empty one included,
`UnmarshalBinary` returns an error (the end-of-file error of `binary.Read`)
and leaves the receiver as it was. -/
theorem truncated_header (q : Packet) (data : List Byte) (h : data.length < 64) :
    UnmarshalBinary q data =
      (q, some (if data.length = 0 then Error.EOF else Error.ErrUnexpectedEOF)) := by
  have h1 : ¬ 64 ≤ data.length := by omega
  unfold UnmarshalBinary readHeader readFull
  by_cases h0 : data.length = 0
  · rw [if_neg h1, if_pos h0, if_pos h0]
  · rw [if_neg h1, if_neg h0, if_neg h0]

theorem truncated_header_witness :
    (List.replicate 63 (0 : Byte)).length < 64 ∧
    UnmarshalBinary emptyPacket (List.replicate 63 0) =
      (emptyPacket, some (if (List.replicate 63 (0 : Byte)).length = 0 then Error.EOF
        else Error.ErrUnexpectedEOF)) :=
  ⟨by decide, truncated_header emptyPacket (List.replicate 63 0) (by decide)⟩

/-! ## C10: truncated body -/

theorem byteAt_take (data : List Byte) (i : Nat) (h : i < 64) :
    byteAt (data.take 64) i = data.getD i 0 := by
  simp [byteAt, List.getElem?_take, h]

/-- The header `readHeader` finds in a buffer of at least 64 bytes. -/
theorem readHeader_of_length (data : List Byte) (h : 64 ≤ data.length) :
    ∃ ph, readHeader data = .ok (ph, data.drop 64) ∧ ph.Tm = tmBytesAt data ∧
      sumLengths ph.MessageLength.val = announcedCells data := by
  refine ⟨_, by unfold readHeader readFull; rw [if_pos h], ?_, ?_⟩
  · simp [tmBytesAt, byteAt_take]
  · have hr : List.range 8 = [0, 1, 2, 3, 4, 5, 6, 7] := by decide
    simp [word16sAt, List.ofFn_succ, sumLengths, word16Of, announcedCells, hr, slotLength,
      byteAt_take]

/-- C10: for every buffer of at least 64 bytes whose timestamp bytes form a
date and a time, with `L` the sum of the 8 big-endian `messageLength` values,
`UnmarshalBinary` succeeds exactly when the buffer has at least `64 + 11 L`
bytes, and otherwise returns an end-of-file error. -/
theorem truncated_body (q : Packet) (data : List Byte) (hl : 64 ≤ data.length)
    (hv : validTm (tmBytesAt data)) :
    ((UnmarshalBinary q data).2 = none ↔ 64 + 11 * announcedCells data ≤ data.length) ∧
      (data.length < 64 + 11 * announcedCells data →
        (UnmarshalBinary q data).2 = some .EOF ∨
        (UnmarshalBinary q data).2 = some .ErrUnexpectedEOF) := by
  obtain ⟨ph, h1, h2, h3⟩ := readHeader_of_length data hl
  obtain ⟨t, ht, _⟩ := timeParse_of_validTm ph.Tm (h2 ▸ hv)
  obtain ⟨e1, e2⟩ := unmarshalLoop_error ph ph.MessageLength.val 0 (data.drop 64) []
  have hres : (UnmarshalBinary q data).2 =
      (unmarshalLoop ph ph.MessageLength.val 0 (data.drop 64) []).2 := by
    unfold UnmarshalBinary
    rw [h1]
    simp only [ht]
  rw [hres, e1, h3, List.length_drop]
  refine ⟨by omega, fun hlt => ?_⟩
  rcases e2 with e2 | e2
  · rw [e1, h3, List.length_drop] at e2
    omega
  · exact e2

set_option maxRecDepth 8192 in
theorem truncated_body_witness :
    (64 ≤ testData.length ∧ validTm (tmBytesAt testData)) ∧
    ((UnmarshalBinary emptyPacket testData).2 = none ↔
        64 + 11 * announcedCells testData ≤ testData.length) ∧
      (testData.length < 64 + 11 * announcedCells testData →
        (UnmarshalBinary emptyPacket testData).2 = some .EOF ∨
        (UnmarshalBinary emptyPacket testData).2 = some .ErrUnexpectedEOF) :=
  ⟨⟨by decide, by decide⟩, truncated_body emptyPacket testData (by decide) (by decide)⟩

/-! ## The decoder on an arbitrary buffer -/

theorem readHeader_eq (data : List Byte) (h : 64 ≤ data.length) :
    readHeader data = .ok (headerAt data, data.drop 64) := by
  unfold readHeader readFull
  rw [if_pos h]
  rfl

theorem headerAt_tm (data : List Byte) : (headerAt data).Tm = tmBytesAt data := by
  simp [headerAt, tmBytesAt, byteAt_take]

theorem headerAt_attr (data : List Byte) :
    (headerAt data).BlinkAttr = data.getD 6 0 ∧ (headerAt data).BorderAttr = data.getD 7 0 := by
  simp [headerAt, byteAt_take]

theorem headerAt_speedAndMode (data : List Byte) (i : Nat) (h : i < 8) :
    (headerAt data).SpeedAndMode.val.getD i 0 = data.getD (8 + i) 0 := by
  interval_cases i <;> simp [headerAt, arrayAt, List.ofFn_succ, byteAt_take]

theorem headerAt_messageLength (data : List Byte) (i : Nat) (h : i < 8) :
    ∃ w, (headerAt data).MessageLength.val[i]? = some w ∧ w.val = slotLength data i := by
  interval_cases i <;>
    simp [headerAt, word16sAt, List.ofFn_succ, byteAt_take, word16Of, slotLength]

theorem headerAt_sumLengths (data : List Byte) :
    sumLengths (headerAt data).MessageLength.val = announcedCells data := by
  have hr : List.range 8 = [0, 1, 2, 3, 4, 5, 6, 7] := by decide
  simp [headerAt, word16sAt, List.ofFn_succ, sumLengths, word16Of, announcedCells, hr,
    slotLength, byteAt_take]

/-- A successful call of `UnmarshalBinary`, taken apart: the buffer holds a
header, its timestamp parses, the loop over the slots succeeds, and the
receiver is overwritten with the three results. -/
theorem UnmarshalBinary_success (q : Packet) (data : List Byte)
    (h : (UnmarshalBinary q data).2 = none) :
    64 ≤ data.length ∧ ∃ t, timeParse (sprintfTm (tmBytesAt data)) = some t ∧
      (unmarshalLoop (headerAt data) (headerAt data).MessageLength.val 0 (data.drop 64) []).2
        = none ∧
      UnmarshalBinary q data =
        ({ Magic := (headerAt data).Magic
           Timestamp := t
           Messages := (unmarshalLoop (headerAt data) (headerAt data).MessageLength.val 0
            (data.drop 64) []).1 }, none) := by
  by_cases hl : 64 ≤ data.length
  · refine ⟨hl, ?_⟩
    unfold UnmarshalBinary at h ⊢
    rw [readHeader_eq data hl] at h ⊢
    simp only [headerAt_tm] at h ⊢
    cases ht : timeParse (sprintfTm (tmBytesAt data)) with
    | none => simp [ht] at h
    | some t =>
      simp only [ht] at h ⊢
      exact ⟨t, rfl, h, by rw [h]⟩
  · exfalso
    have h1 : ¬ 64 ≤ data.length := hl
    unfold UnmarshalBinary readHeader readFull at h
    by_cases h0 : data.length = 0
    · rw [if_neg h1, if_pos h0] at h; cases h
    · rw [if_neg h1, if_neg h0] at h; cases h

set_option maxRecDepth 8192 in
theorem high_nibble (b : Byte) : (b.val &&& 0xf0) >>> 4 = b.val >>> 4 := by
  have h : ∀ n < 256, (n &&& 0xf0) >>> 4 = n >>> 4 := by decide
  exact h b.val b.isLt

theorem cellsBefore_succ (data : List Byte) (i : Nat) :
    cellsBefore data (i + 1) = cellsBefore data i + slotLength data i := by
  simp [cellsBefore, List.range_succ]

theorem unmarshalLoop_skip (ph : packetHeader) (w : Word16) (lens : List Word16) (idx : Nat)
    (buf : List Byte) (msgs : List Message) (hw : w.val = 0) :
    unmarshalLoop ph (w :: lens) idx buf msgs = unmarshalLoop ph lens (idx + 1) buf msgs := by
  simp only [unmarshalLoop, hw, if_true]

theorem unmarshalLoop_read (ph : packetHeader) (w : Word16) (lens : List Word16) (idx : Nat)
    (buf : List Byte) (msgs : List Message) (hw : w.val ≠ 0) (hb : 11 * w.val ≤ buf.length) :
    unmarshalLoop ph (w :: lens) idx buf msgs =
      unmarshalLoop ph lens (idx + 1) (buf.drop (11 * w.val)) (msgs ++
        [{ Speed := ((((ph.SpeedAndMode.val.getD idx 0).val &&& 0xf0) >>> 4 : Nat) : Int)
           Mode := (((ph.SpeedAndMode.val.getD idx 0).val &&& 0x0f : Nat) : Int)
           Blink := bitSet ph.BlinkAttr idx
           Border := bitSet ph.BorderAttr idx
           Columns := cellsOf w.val (buf.take (11 * w.val)) }]) := by
  simp only [unmarshalLoop, hw, if_false, readColumns_enough buf _ hb]

theorem unmarshalLoop_fail (ph : packetHeader) (w : Word16) (lens : List Word16) (idx : Nat)
    (buf : List Byte) (msgs : List Message) (hw : w.val ≠ 0) (hb : ¬ 11 * w.val ≤ buf.length) :
    (unmarshalLoop ph (w :: lens) idx buf msgs).2 ≠ none := by
  simp only [unmarshalLoop, hw, if_false, readColumns_short buf _ (Nat.lt_of_not_le hb)]
  intro h
  split_ifs at h

/-- The messages a successful decoder loop appends: one per slot with a
non-zero length, in slot order, read from the slot's place in the buffer. -/
theorem unmarshalLoop_messages (data : List Byte) (lens : List Word16) :
    ∀ (idx : Nat) (msgs : List Message), idx + lens.length = 8 →
      (∀ k w, lens[k]? = some w → w.val = slotLength data (idx + k)) →
      (unmarshalLoop (headerAt data) lens idx
        (data.drop (64 + 11 * cellsBefore data idx)) msgs).2 = none →
      (unmarshalLoop (headerAt data) lens idx
        (data.drop (64 + 11 * cellsBefore data idx)) msgs).1 =
        msgs ++ ((List.range' idx lens.length).filter
          (fun i => decide (slotLength data i ≠ 0))).map (slotMessage data) := by
  induction lens with
  | nil => intro idx msgs _ _ _; simp [unmarshalLoop]
  | cons w lens ih =>
    intro idx msgs hn hl h
    simp only [List.length_cons] at hn
    have hw : w.val = slotLength data idx := by simpa using hl 0 w (by simp)
    have hl2 : ∀ k w2, lens[k]? = some w2 → w2.val = slotLength data (idx + 1 + k) := by
      intro k w2 hk
      rw [show idx + 1 + k = idx + (k + 1) by omega]
      exact hl (k + 1) w2 (by simpa using hk)
    by_cases h0 : w.val = 0
    · rw [unmarshalLoop_skip _ _ _ _ _ _ h0] at h ⊢
      have hc : cellsBefore data (idx + 1) = cellsBefore data idx := by
        rw [cellsBefore_succ]; omega
      rw [← hc] at h ⊢
      rw [ih (idx + 1) msgs (by omega) hl2 h]
      have hs : slotLength data idx = 0 := by omega
      simp [List.range'_succ, hs]
    · by_cases hb : 11 * w.val ≤ (data.drop (64 + 11 * cellsBefore data idx)).length
      · rw [unmarshalLoop_read _ _ _ _ _ _ h0 hb] at h ⊢
        have hd : List.drop (11 * w.val) (data.drop (64 + 11 * cellsBefore data idx)) =
            data.drop (64 + 11 * cellsBefore data (idx + 1)) := by
          rw [List.drop_drop, cellsBefore_succ, ← hw]
          congr 1
          omega
        rw [hd] at h ⊢
        rw [ih (idx + 1) _ (by omega) hl2 h]
        have hs : slotLength data idx ≠ 0 := by omega
        have hm : ({ Speed := (((((headerAt data).SpeedAndMode.val.getD idx 0).val &&& 0xf0) >>> 4
                      : Nat) : Int)
                     Mode := ((((headerAt data).SpeedAndMode.val.getD idx 0).val &&& 0x0f : Nat)
                      : Int)
                     Blink := bitSet (headerAt data).BlinkAttr idx
                     Border := bitSet (headerAt data).BorderAttr idx
                     Columns := cellsOf w.val
                      ((data.drop (64 + 11 * cellsBefore data idx)).take (11 * w.val)) }
              : Message) = slotMessage data idx := by
          unfold slotMessage
          rw [headerAt_speedAndMode data idx (by omega), high_nibble,
            bitSet_eq_testBit _ _ (by omega), bitSet_eq_testBit _ _ (by omega),
            (headerAt_attr data).1, (headerAt_attr data).2, hw]
        rw [hm]
        simp [List.range'_succ, hs]
      · exact absurd h (unmarshalLoop_fail _ _ _ _ _ _ h0 hb)

theorem cellsBefore_mono (data : List Byte) (i j : Nat) (h : i ≤ j) :
    cellsBefore data i ≤ cellsBefore data j := by
  induction j with
  | zero =>
    have : i = 0 := by omega
    subst this
    exact Nat.le_refl _
  | succ j ih =>
    by_cases hij : i = j + 1
    · subst hij; exact Nat.le_refl _
    · have := ih (by omega)
      rw [cellsBefore_succ]
      omega

theorem cellsOf_length (n : Nat) (bs : List Byte) : (cellsOf n bs).length = n := by
  induction n generalizing bs with
  | zero => rfl
  | succ n ih => simp [cellsOf, ih]

theorem cellOf_val (bs : List Byte) (h : 11 ≤ bs.length) : (cellOf bs).val = bs.take 11 := by
  have e : bs = bs.take 11 ++ bs.drop 11 := (List.take_append_drop 11 bs).symm
  have hl : (bs.take 11).length = 11 := by rw [List.length_take]; omega
  have := cellOf_append ⟨bs.take 11, hl⟩ (bs.drop 11)
  simp only [← e] at this
  rw [this]

theorem cellsBytes_cellsOf (n : Nat) (bs : List Byte) (h : bs.length = 11 * n) :
    cellsBytes (cellsOf n bs) = bs := by
  induction n generalizing bs with
  | zero =>
    have : bs = [] := List.eq_nil_of_length_eq_zero (by omega)
    subst this
    rfl
  | succ n ih =>
    rw [cellsOf, cellsBytes, cellOf_val bs (by omega), ih (bs.drop 11) (by rw [List.length_drop]; omega),
      List.take_append_drop]

theorem filter_range_rank (p : Nat → Bool) (n i : Nat) (hi : i < n) (hp : p i = true) :
    ((List.range n).filter p)[((List.range i).filter p).length]? = some i := by
  induction n with
  | zero => omega
  | succ n ih =>
    rw [List.range_succ, List.filter_append]
    by_cases hin : i = n
    · subst hin
      rw [List.getElem?_append_right (Nat.le_refl _)]
      simp [hp]
    · have h1 := ih (by omega)
      have hlt : ((List.range i).filter p).length < ((List.range n).filter p).length := by
        by_contra hc
        rw [List.getElem?_eq_none (by omega)] at h1
        cases h1
      rw [List.getElem?_append_left hlt, h1]

/-- The messages of a successful decode: the messages of the non-empty slots,
in slot order. -/
theorem UnmarshalBinary_messages (q : Packet) (data : List Byte)
    (h : (UnmarshalBinary q data).2 = none) :
    (UnmarshalBinary q data).1.Messages = (presentSlots data).map (slotMessage data) := by
  obtain ⟨_, t, _, hloop, hres⟩ := UnmarshalBinary_success q data h
  have h0 : cellsBefore data 0 = 0 := rfl
  have hlen : (headerAt data).MessageLength.val.length = 8 := (headerAt data).MessageLength.property
  have hm := unmarshalLoop_messages data (headerAt data).MessageLength.val 0 []
    (by omega)
    (fun k w hk => by
      have hk8 : k < 8 := by
        by_contra hc
        rw [List.getElem?_eq_none (by omega)] at hk
        cases hk
      obtain ⟨w2, e1, e2⟩ := headerAt_messageLength data k hk8
      rw [hk] at e1
      injection e1 with e1
      rw [Nat.zero_add, e1, e2])
    (by rw [h0]; exact hloop)
  rw [hres]
  simp only []
  rw [h0] at hm
  rw [hm, hlen, List.nil_append, presentSlots, List.range_eq_range']

/-- A successful decode has found 11 bytes for every announced cell. -/
theorem UnmarshalBinary_length (q : Packet) (data : List Byte)
    (h : (UnmarshalBinary q data).2 = none) :
    64 + 11 * announcedCells data ≤ data.length := by
  obtain ⟨hl, t, _, hloop, _⟩ := UnmarshalBinary_success q data h
  have := (unmarshalLoop_error (headerAt data) (headerAt data).MessageLength.val 0
    (data.drop 64) []).1.1 hloop
  rw [headerAt_sumLengths, List.length_drop] at this
  omega

set_option maxRecDepth 8192 in
theorem gapData_decodes : (UnmarshalBinary emptyPacket gapData).2 = none := by decide

/-! ## C11: the fields of a decoded message -/

/-- C11: for every buffer that `UnmarshalBinary` decodes successfully and every
slot `i` in 0..7 with a non-zero `messageLength`, the message produced for
slot `i` (the one after the messages of the earlier non-empty slots) has
Speed = byte(8+i) >> 4, Mode = byte(8+i) & 0x0F, Blink = bit `i` of byte 6,
Border = bit `i` of byte 7, and exactly `messageLength[i]` cells whose bytes
are the buffer bytes from offset 64 + 11 * (sum of the earlier lengths). -/
theorem decode_field_extraction (q : Packet) (data : List Byte)
    (h : (UnmarshalBinary q data).2 = none) (i : Nat) (hi : i < 8)
    (hs : slotLength data i ≠ 0) :
    ∃ m, (UnmarshalBinary q data).1.Messages[rankOf data i]? = some m ∧
      m.Speed = (((data.getD (8 + i) 0).val >>> 4 : Nat) : Int) ∧
      m.Mode = (((data.getD (8 + i) 0).val &&& 0x0F : Nat) : Int) ∧
      m.Blink = (data.getD 6 0).val.testBit i ∧
      m.Border = (data.getD 7 0).val.testBit i ∧
      m.Columns.length = slotLength data i ∧
      cellsBytes m.Columns =
        (data.drop (64 + 11 * cellsBefore data i)).take (11 * slotLength data i) := by
  have hlen := UnmarshalBinary_length q data h
  have hrank : (presentSlots data)[rankOf data i]? = some i :=
    filter_range_rank (fun j => decide (slotLength data j ≠ 0)) 8 i hi (by simpa using hs)
  refine ⟨slotMessage data i, ?_, rfl, rfl, rfl, rfl, ?_, ?_⟩
  · rw [UnmarshalBinary_messages q data h, List.getElem?_map, hrank]
    rfl
  · exact cellsOf_length _ _
  · apply cellsBytes_cellsOf
    have h1 := cellsBefore_mono data (i + 1) 8 (by omega)
    rw [cellsBefore_succ] at h1
    have h2 : cellsBefore data 8 = announcedCells data := rfl
    rw [List.length_take, List.length_drop]
    omega

theorem decode_field_extraction_witness :
    ((UnmarshalBinary emptyPacket gapData).2 = none ∧ 1 < 8 ∧ slotLength gapData 1 ≠ 0) ∧
    ∃ m, (UnmarshalBinary emptyPacket gapData).1.Messages[rankOf gapData 1]? = some m ∧
      m.Speed = (((gapData.getD (8 + 1) 0).val >>> 4 : Nat) : Int) ∧
      m.Mode = (((gapData.getD (8 + 1) 0).val &&& 0x0F : Nat) : Int) ∧
      m.Blink = (gapData.getD 6 0).val.testBit 1 ∧
      m.Border = (gapData.getD 7 0).val.testBit 1 ∧
      m.Columns.length = slotLength gapData 1 ∧
      cellsBytes m.Columns =
        (gapData.drop (64 + 11 * cellsBefore gapData 1)).take (11 * slotLength gapData 1) :=
  ⟨⟨gapData_decodes, by decide, by decide⟩,
    decode_field_extraction emptyPacket gapData gapData_decodes 1 (by decide) (by decide)⟩

/-! ## C12: absent slots -/

/-- C12: for every buffer that `UnmarshalBinary` decodes successfully, the
number of decoded messages is the number of slots with a non-zero
`messageLength`; the k-th decoded message is the message of the k-th such
slot, the slots being taken in increasing order; a slot with length 0 is not
among them; and no decoded message has zero cells. -/
theorem absent_slot_law (q : Packet) (data : List Byte)
    (h : (UnmarshalBinary q data).2 = none) :
    (UnmarshalBinary q data).1.Messages.length =
        ((List.range 8).filter (fun i => decide (slotLength data i ≠ 0))).length ∧
      (presentSlots data).Pairwise (fun i j => i < j) ∧
      (∀ i, i ∈ presentSlots data ↔ i < 8 ∧ slotLength data i ≠ 0) ∧
      (∀ (k i : Nat), (presentSlots data)[k]? = some i →
        ∃ m, (UnmarshalBinary q data).1.Messages[k]? = some m ∧ m = slotMessage data i ∧
          m.Columns.length = slotLength data i) ∧
      (∀ m ∈ (UnmarshalBinary q data).1.Messages, m.Columns.length ≠ 0) := by
  have hm := UnmarshalBinary_messages q data h
  have hmem : ∀ i, i ∈ presentSlots data ↔ i < 8 ∧ slotLength data i ≠ 0 := by
    intro i
    simp [presentSlots]
  refine ⟨?_, ?_, hmem, ?_, ?_⟩
  · rw [hm, List.length_map, presentSlots]
  · exact List.Pairwise.filter _ (List.pairwise_lt_range 8)
  · intro k i hk
    refine ⟨slotMessage data i, ?_, rfl, cellsOf_length _ _⟩
    rw [hm, List.getElem?_map, hk]
    rfl
  · intro m hmm
    rw [hm, List.mem_map] at hmm
    obtain ⟨i, hi, rfl⟩ := hmm
    have := (hmem i).1 hi
    show (cellsOf _ _).length ≠ 0
    rw [cellsOf_length]
    exact this.2

theorem absent_slot_law_witness :
    (UnmarshalBinary emptyPacket gapData).2 = none ∧
    ((UnmarshalBinary emptyPacket gapData).1.Messages.length =
        ((List.range 8).filter (fun i => decide (slotLength gapData i ≠ 0))).length ∧
      (presentSlots gapData).Pairwise (fun i j => i < j) ∧
      (∀ i, i ∈ presentSlots gapData ↔ i < 8 ∧ slotLength gapData i ≠ 0) ∧
      (∀ (k i : Nat), (presentSlots gapData)[k]? = some i →
        ∃ m, (UnmarshalBinary emptyPacket gapData).1.Messages[k]? = some m ∧
          m = slotMessage gapData i ∧ m.Columns.length = slotLength gapData i) ∧
      (∀ m ∈ (UnmarshalBinary emptyPacket gapData).1.Messages, m.Columns.length ≠ 0)) :=
  ⟨gapData_decodes, absent_slot_law emptyPacket gapData gapData_decodes⟩

/-! ## C13: the decoded timestamp -/

/-- The timestamp of a successful decode, in terms of the six bytes. -/
theorem UnmarshalBinary_timestamp (q : Packet) (data : List Byte)
    (h : (UnmarshalBinary q data).2 = none) :
    validTm (tmBytesAt data) ∧
      (UnmarshalBinary q data).1.Timestamp.year = pivotYear (data.getD 38 0).val ∧
      (UnmarshalBinary q data).1.Timestamp.month = (data.getD 39 0).val ∧
      (UnmarshalBinary q data).1.Timestamp.day = (data.getD 40 0).val ∧
      (UnmarshalBinary q data).1.Timestamp.hour = (data.getD 41 0).val ∧
      (UnmarshalBinary q data).1.Timestamp.minute = (data.getD 42 0).val ∧
      (UnmarshalBinary q data).1.Timestamp.second = (data.getD 43 0).val := by
  obtain ⟨_, t, ht, _, hres⟩ := UnmarshalBinary_success q data h
  have hv : validTm (tmBytesAt data) := by
    by_contra hc
    rw [timeParse_of_not_validTm _ hc] at ht
    cases ht
  obtain ⟨t2, ht2, e⟩ := timeParse_of_validTm _ hv
  rw [ht] at ht2
  injection ht2 with ht2
  subst ht2
  rw [hres]
  exact ⟨hv, e⟩

/-- C13 as amended: for every buffer that `UnmarshalBinary` decodes
successfully the year byte at offset 38 is at most 99 and the year of the
resulting Timestamp is 2000 + the byte when the byte is in 0..68 and
1900 + the byte when it is in 69..99; month, day, hour, minute and second
equal the bytes at offsets 39..43. -/
theorem decoded_year (q : Packet) (data : List Byte)
    (h : (UnmarshalBinary q data).2 = none) :
    (data.getD 38 0).val ≤ 99 ∧
      ((data.getD 38 0).val ≤ 68 →
        (UnmarshalBinary q data).1.Timestamp.year = 2000 + ((data.getD 38 0).val : Int)) ∧
      (69 ≤ (data.getD 38 0).val →
        (UnmarshalBinary q data).1.Timestamp.year = 1900 + ((data.getD 38 0).val : Int)) ∧
      (UnmarshalBinary q data).1.Timestamp.month = (data.getD 39 0).val ∧
      (UnmarshalBinary q data).1.Timestamp.day = (data.getD 40 0).val ∧
      (UnmarshalBinary q data).1.Timestamp.hour = (data.getD 41 0).val ∧
      (UnmarshalBinary q data).1.Timestamp.minute = (data.getD 42 0).val ∧
      (UnmarshalBinary q data).1.Timestamp.second = (data.getD 43 0).val := by
  obtain ⟨hv, hy, rest⟩ := UnmarshalBinary_timestamp q data h
  refine ⟨hv.1, ?_, ?_, rest⟩
  · intro h1
    rw [hy]
    unfold pivotYear
    split <;> omega
  · intro h1
    rw [hy]
    unfold pivotYear
    split <;> omega

theorem decoded_year_witness :
    (UnmarshalBinary emptyPacket gapData).2 = none ∧
    ((gapData.getD 38 0).val ≤ 99 ∧
      ((gapData.getD 38 0).val ≤ 68 →
        (UnmarshalBinary emptyPacket gapData).1.Timestamp.year =
          2000 + ((gapData.getD 38 0).val : Int)) ∧
      (69 ≤ (gapData.getD 38 0).val →
        (UnmarshalBinary emptyPacket gapData).1.Timestamp.year =
          1900 + ((gapData.getD 38 0).val : Int)) ∧
      (UnmarshalBinary emptyPacket gapData).1.Timestamp.month = (gapData.getD 39 0).val ∧
      (UnmarshalBinary emptyPacket gapData).1.Timestamp.day = (gapData.getD 40 0).val ∧
      (UnmarshalBinary emptyPacket gapData).1.Timestamp.hour = (gapData.getD 41 0).val ∧
      (UnmarshalBinary emptyPacket gapData).1.Timestamp.minute = (gapData.getD 42 0).val ∧
      (UnmarshalBinary emptyPacket gapData).1.Timestamp.second = (gapData.getD 43 0).val) :=
  ⟨gapData_decodes, decoded_year emptyPacket gapData gapData_decodes⟩

/-- C13 as stated fails: the header stamped with the year byte 99 decodes
successfully, and the year of the resulting Timestamp is 1999, not 2099. -/
theorem decoded_year_counterexample :
    (UnmarshalBinary emptyPacket y99Data).2 = none ∧
      (y99Data.getD 38 0).val = 99 ∧
      (UnmarshalBinary emptyPacket y99Data).1.Timestamp.year = 1999 ∧
      (UnmarshalBinary emptyPacket y99Data).1.Timestamp.year ≠
        2000 + ((y99Data.getD 38 0).val : Int) := by
  decide

/-! ## Lemmas on `SetImage` -/

theorem orBit_if_testBit (acc : Byte) (lit : Prop) [Decidable lit] (idx k : Nat)
    (hidx : idx < 8) :
    (if lit then orBit acc idx else acc).val.testBit k = true ↔
      (acc.val.testBit k = true ∨ (idx = k ∧ lit)) := by
  by_cases h : lit
  · simp [h, orBit_testBit acc idx k hidx]
  · simp [h]

/-- The bits the innermost loop of `SetImage` adds to a byte. -/
theorem bitLoop_testBit (img : Image) (w : Int) (i j : Nat) :
    ∀ (fuel b0 : Nat) (acc : Byte) (k : Nat), b0 + fuel = 8 →
      ((bitLoop img w i j fuel b0 acc).val.testBit k = true ↔
        (acc.val.testBit k = true ∨ ∃ b, b0 ≤ b ∧ b < 8 ∧ k = 7 - b ∧
          ((i + b : Nat) : Int) < w ∧ 0x7f < (img.GrayAt ((i + b : Nat) : Int) (j : Int)).val)) := by
  intro fuel
  induction fuel with
  | zero =>
    intro b0 acc k h
    simp only [bitLoop]
    constructor
    · exact Or.inl
    · rintro (h1 | ⟨b, h1, h2, _⟩)
      · exact h1
      · omega
  | succ fuel ih =>
    intro b0 acc k h
    have hb0 : b0 < 8 := by omega
    by_cases hc : ((i + b0 : Nat) : Int) < w
    · rw [bitLoop, if_pos ⟨hb0, hc⟩, ih (b0 + 1) _ k (by omega),
        orBit_if_testBit acc _ (7 - b0) k (by omega)]
      constructor
      · rintro ((h1 | ⟨h1, h2⟩) | ⟨b, h1, h2, h3, h4, h5⟩)
        · exact Or.inl h1
        · exact Or.inr ⟨b0, Nat.le_refl _, hb0, h1.symm, hc, h2⟩
        · exact Or.inr ⟨b, by omega, h2, h3, h4, h5⟩
      · rintro (h1 | ⟨b, h1, h2, h3, h4, h5⟩)
        · exact Or.inl (Or.inl h1)
        · by_cases hb : b = b0
          · subst hb
            exact Or.inl (Or.inr ⟨h3.symm, h5⟩)
          · exact Or.inr ⟨b, by omega, h2, h3, h4, h5⟩
    · have hn : ¬ (b0 < 8 ∧ ((i + b0 : Nat) : Int) < w) := fun h => hc h.2
      rw [bitLoop, if_neg hn]
      constructor
      · exact Or.inl
      · rintro (h1 | ⟨b, h1, h2, h3, h4, h5⟩)
        · exact h1
        · exfalso
          apply hc
          have : ((i + b0 : Nat) : Int) ≤ ((i + b : Nat) : Int) := by omega
          omega

/-- The rows the middle loop of `SetImage` leaves in a cell. -/
theorem rowLoop_getD (img : Image) (w : Int) (i : Nat) :
    ∀ (fuel j0 : Nat) (cell : Cell) (r : Nat), j0 + fuel = 11 → r < 11 →
      (rowLoop img w i fuel j0 cell).val.getD r 0 =
        if j0 ≤ r then bitLoop img w i r 8 0 (cell.val.getD r 0) else cell.val.getD r 0 := by
  intro fuel
  induction fuel with
  | zero =>
    intro j0 cell r h hr
    have : ¬ j0 ≤ r := by omega
    simp [rowLoop, this]
  | succ fuel ih =>
    intro j0 cell r h hr
    have hj0 : j0 < 11 := by omega
    have hlen : j0 < cell.val.length := by rw [cell.property]; exact hj0
    rw [rowLoop, if_pos hj0, ih (j0 + 1) _ r (by omega) hr]
    simp only [List.getD_eq_getElem?_getD, List.getElem?_set]
    by_cases h1 : j0 + 1 ≤ r
    · have h2 : j0 ≤ r := by omega
      have h3 : ¬ j0 = r := by omega
      simp [h1, h2, h3]
    · by_cases h2 : j0 = r
      · subst h2
        simp [hj0]
      · have h3 : ¬ j0 ≤ r := by omega
        simp [h1, h2, h3]

theorem getD_set_eq {α : Type} (l : List α) (i c : Nat) (v d : α) (hc : c < l.length) :
    (l.set i v).getD c d = if i = c then v else l.getD c d := by
  simp only [List.getD_eq_getElem?_getD, List.getElem?_set]
  by_cases h : i = c
  · subst h
    simp [hc]
  · simp [h]

/-- The cells the outer loop of `SetImage` leaves in `m.Columns`. -/
theorem cellLoop_spec (img : Image) (w : Int) :
    ∀ (fuel c0 : Nat) (cols : List Cell), w ≤ ((8 * c0 + fuel : Nat) : Int) →
      (cellLoop img w fuel (8 * c0) cols).length = cols.length ∧
      ∀ c, c < cols.length →
        (cellLoop img w fuel (8 * c0) cols).getD c zeroCell =
          if c0 ≤ c ∧ ((8 * c : Nat) : Int) < w then
            rowLoop img w (8 * c) 11 0 (cols.getD c zeroCell)
          else cols.getD c zeroCell := by
  intro fuel
  induction fuel with
  | zero =>
    intro c0 cols h
    refine ⟨rfl, fun c _ => ?_⟩
    have : ¬ (c0 ≤ c ∧ ((8 * c : Nat) : Int) < w) := by
      rintro ⟨h1, h2⟩
      have : ((8 * c0 : Nat) : Int) ≤ ((8 * c : Nat) : Int) := by omega
      omega
    simp only [cellLoop, if_neg this]
  | succ fuel ih =>
    intro c0 cols h
    by_cases hc : ((8 * c0 : Nat) : Int) < w
    · have hdiv : 8 * c0 / 8 = c0 := Nat.mul_div_cancel_left c0 (by decide)
      have hnext : 8 * c0 + 8 = 8 * (c0 + 1) := by omega
      rw [cellLoop, if_pos hc, hdiv, hnext]
      obtain ⟨h1, h2⟩ := ih (c0 + 1)
        (cols.set c0 (rowLoop img w (8 * c0) 11 0 (cols.getD c0 zeroCell))) (by omega)
      rw [List.length_set] at h1 h2
      refine ⟨h1, fun c hcl => ?_⟩
      rw [h2 c hcl, getD_set_eq _ _ _ _ _ hcl]
      by_cases e2 : c0 = c
      · subst e2
        have e1 : ¬ (c0 + 1 ≤ c0 ∧ ((8 * c0 : Nat) : Int) < w) := by omega
        rw [if_neg e1, if_pos rfl, if_pos ⟨Nat.le_refl _, hc⟩]
      · rw [if_neg e2]
        by_cases hP : c0 ≤ c ∧ ((8 * c : Nat) : Int) < w
        · rw [if_pos hP, if_pos ⟨by omega, hP.2⟩]
        · rw [if_neg hP, if_neg (fun h => hP ⟨by omega, h.2⟩)]
    · refine ⟨by rw [cellLoop, if_neg hc], fun c _ => ?_⟩
      have : ¬ (c0 ≤ c ∧ ((8 * c : Nat) : Int) < w) := by
        rintro ⟨h1, h2⟩
        have : ((8 * c0 : Nat) : Int) ≤ ((8 * c : Nat) : Int) := by omega
        omega
      rw [cellLoop, if_neg hc, if_neg this]

theorem zeroCell_getD (r : Nat) : zeroCell.val.getD r 0 = 0 := by
  simp only [zeroCell, List.getD_eq_getElem?_getD, List.getElem?_replicate]
  split <;> rfl

/-- The number of cells `SetImage` makes for a non-negative width. -/
theorem nrCells_eq (w : Int) (hw : 0 ≤ w) :
    Int.tdiv w 8 + (if Int.tmod w 8 ≠ 0 then 1 else 0) = (w + 7) / 8 := by
  rw [Int.tmod_eq_emod hw (by decide), Int.tdiv_eq_ediv hw (by decide)]
  split <;> omega

/-- The result of `SetImage` on an image of height 11 whose width is
non-negative and small enough for `make`: no error, `ceil(width / 8)` cells,
and each bit decided by the threshold on the point handed to `At`. -/
theorem SetImage_spec (m : Message) (img : Image) (h11 : img.Bounds.Dy = 11)
    (hw : 0 ≤ img.Bounds.Dx) (hmax : 11 * ((img.Bounds.Dx + 7) / 8) ≤ maxAlloc) :
    ∃ cols : List Cell, SetImage m img = .ok ({ m with Columns := cols }, none) ∧
      (cols.length : Int) = (img.Bounds.Dx + 7) / 8 ∧
      ∀ c r b, c < cols.length → r < 11 → b < 8 →
        (((cols.getD c zeroCell).val.getD r 0).val.testBit (7 - b) = true ↔
          (((c * 8 + b : Nat) : Int) < img.Bounds.Dx ∧
            127 < (img.GrayAt ((c * 8 + b : Nat) : Int) (r : Int)).val)) := by
  have hn := nrCells_eq img.Bounds.Dx hw
  have hpanic : ¬ ((img.Bounds.Dx + 7) / 8 < 0 ∨
      maxAlloc < 11 * ((img.Bounds.Dx + 7) / 8)) := by omega
  obtain ⟨h1, h2⟩ := cellLoop_spec img img.Bounds.Dx img.Bounds.Dx.toNat 0
    (List.replicate ((img.Bounds.Dx + 7) / 8).toNat zeroCell) (by omega)
  rw [List.length_replicate] at h1 h2
  refine ⟨cellLoop img img.Bounds.Dx img.Bounds.Dx.toNat 0
    (List.replicate ((img.Bounds.Dx + 7) / 8).toNat zeroCell), ?_, ?_, ?_⟩
  · unfold SetImage
    simp only [h11, ne_eq, not_true_eq_false, if_false, hn, hpanic]
  · rw [h1]; omega
  · intro c r b hc hr hb
    rw [h1] at hc
    have hcw : ((8 * c : Nat) : Int) < img.Bounds.Dx := by omega
    have h3 := h2 c hc
    rw [Nat.mul_zero] at h3
    rw [h3, if_pos ⟨Nat.zero_le _, hcw⟩, rowLoop_getD img _ _ 11 0 _ r (by omega) hr,
      if_pos (Nat.zero_le _), bitLoop_testBit img _ _ _ 8 0 _ _ (by omega)]
    have hz : (List.replicate ((img.Bounds.Dx + 7) / 8).toNat zeroCell).getD c zeroCell
        = zeroCell := by
      simp only [List.getD_eq_getElem?_getD, List.getElem?_replicate]
      split <;> rfl
    rw [hz, zeroCell_getD]
    have e : 8 * c = c * 8 := Nat.mul_comm _ _
    rw [e]
    constructor
    · rintro (h0 | ⟨b2, _, hb2, hk, h4, h5⟩)
      · simp at h0
      · have : b2 = b := by omega
        subst this
        exact ⟨h4, h5⟩
    · rintro ⟨h4, h5⟩
      exact Or.inr ⟨b, Nat.zero_le _, hb, rfl, h4, h5⟩

theorem getElem?_eq_some_getD {α : Type} (l : List α) (i : Nat) (d : α) (h : i < l.length) :
    l[i]? = some (l.getD i d) := by
  simp [List.getD_eq_getElem?_getD, List.getElem?_eq_getElem h]

/-- The height of `wrapImage` is 11 through the wrap-around of `int`, so
`SetImage` accepts it and encodes its 8 columns. -/
theorem SetImage_wrapImage :
    wrapImage.Bounds.Dy = 11 ∧
      SetImage testMessage wrapImage = .ok ({ testMessage with Columns := [fullCell] }, none) :=
  ⟨by decide, rfl⟩

/-! ## C14: bad raster height -/

/-- C14: for every image, `SetImage` returns `ErrBadImageSize` exactly when the
height of the image is not 11, and when it does the message is left as it
was. -/
theorem bad_image_size (m : Message) (img : Image) :
    ((∃ m2, SetImage m img = .ok (m2, some .ErrBadImageSize)) ↔ img.Bounds.Dy ≠ 11) ∧
      (∀ m2, SetImage m img = .ok (m2, some .ErrBadImageSize) → m2 = m) := by
  by_cases h : img.Bounds.Dy = 11
  · have hno : ∀ m2, SetImage m img ≠ .ok (m2, some .ErrBadImageSize) := by
      intro m2 he
      unfold SetImage at he
      simp only [h, ne_eq, not_true_eq_false, if_false] at he
      split_ifs at he <;> cases he
    refine ⟨⟨fun ⟨m2, he⟩ => absurd he (hno m2), fun hne => absurd h hne⟩, ?_⟩
    intro m2 he
    exact absurd he (hno m2)
  · have hyes : SetImage m img = .ok (m, some .ErrBadImageSize) := by
      unfold SetImage
      simp only [ne_eq, h, not_false_eq_true, if_true]
    refine ⟨⟨fun _ => h, fun _ => ⟨m, hyes⟩⟩, ?_⟩
    intro m2 he
    rw [hyes] at he
    injection he with he
    injection he with he _
    exact he.symm

/-! ## C15: the bitmap -/

/-- C15 as amended: for every image of height 11 whose width `w` is
non-negative and small enough for `make` (`11 * ceil(w / 8) ≤ maxAlloc`),
`SetImage` succeeds and sets Columns to `ceil(w / 8)` cells, leaving the other
fields alone; for every cell `c`, row `r` in 0..10 and `b` in 0..7, bit
`7 - b` of `Columns[c][r]` is 0 when `c*8 + b` is beyond `w`, and, when the
bounds of the image start at the origin, the bit is set exactly when
`c*8 + b < w` and the gray value of the raster's pixel in column `c*8 + b`,
row `r` is above 127. On the 25 by 11 test image with only the pixel (10, 5)
lit this gives 4 cells, `Columns[1][5] = 0x20`, all other bytes 0. -/
theorem bitmap_encoding (m : Message) (img : Image) (h11 : img.Bounds.Dy = 11)
    (hw : 0 ≤ img.Bounds.Dx) (hmax : 11 * ((img.Bounds.Dx + 7) / 8) ≤ maxAlloc) :
    (∃ cols : List Cell, SetImage m img = .ok ({ m with Columns := cols }, none) ∧
      (cols.length : Int) = (img.Bounds.Dx + 7) / 8 ∧
      ∀ (c r b : Nat), c < cols.length → r < 11 → b < 8 →
        ∃ cell : Cell, cols[c]? = some cell ∧ ∃ v : Byte, cell.val[r]? = some v ∧
          (¬ ((c * 8 + b : Nat) : Int) < img.Bounds.Dx → v.val.testBit (7 - b) = false) ∧
          (img.Bounds.Min.X = 0 ∧ img.Bounds.Min.Y = 0 →
            (v.val.testBit (7 - b) = true ↔
              (((c * 8 + b : Nat) : Int) < img.Bounds.Dx ∧
                127 < (img.pixel ((c * 8 + b : Nat) : Int) (r : Int)).val)))) ∧
    SetImage m testImage =
      .ok ({ m with Columns := [zeroCell, litCell, zeroCell, zeroCell] }, none) := by
  refine ⟨?_, rfl⟩
  obtain ⟨cols, h1, h2, h3⟩ := SetImage_spec m img h11 hw hmax
  refine ⟨cols, h1, h2, fun c r b hc hr hb => ?_⟩
  have hrl : r < (cols.getD c zeroCell).val.length := by
    rw [(cols.getD c zeroCell).property]; exact hr
  refine ⟨_, getElem?_eq_some_getD cols c zeroCell hc, _,
    getElem?_eq_some_getD _ r 0 hrl, ?_, ?_⟩
  · intro hout
    cases hb2 : ((cols.getD c zeroCell).val.getD r 0).val.testBit (7 - b)
    · rfl
    · exact absurd ((h3 c r b hc hr hb).1 hb2).1 hout
  · intro h0
    have hp : img.pixel ((c * 8 + b : Nat) : Int) (r : Int) =
        img.GrayAt ((c * 8 + b : Nat) : Int) (r : Int) := by
      unfold Image.pixel
      rw [h0.1, h0.2, Int.zero_add, Int.zero_add]
    rw [hp]
    exact h3 c r b hc hr hb

theorem bitmap_encoding_witness :
    (testImage.Bounds.Dy = 11 ∧ 0 ≤ testImage.Bounds.Dx ∧
      11 * ((testImage.Bounds.Dx + 7) / 8) ≤ maxAlloc ∧
      testImage.Bounds.Min.X = 0 ∧ testImage.Bounds.Min.Y = 0) ∧
    (∃ cols : List Cell,
      SetImage testMessage testImage = .ok
        ({ testMessage with Columns := cols }, none) ∧
      (cols.length : Int) = (testImage.Bounds.Dx + 7) / 8 ∧
      ∀ (c r b : Nat), c < cols.length → r < 11 → b < 8 →
        ∃ cell : Cell, cols[c]? = some cell ∧ ∃ v : Byte, cell.val[r]? = some v ∧
          (¬ ((c * 8 + b : Nat) : Int) < testImage.Bounds.Dx →
            v.val.testBit (7 - b) = false) ∧
          (testImage.Bounds.Min.X = 0 ∧ testImage.Bounds.Min.Y = 0 →
            (v.val.testBit (7 - b) = true ↔
              (((c * 8 + b : Nat) : Int) < testImage.Bounds.Dx ∧
                127 < (testImage.pixel ((c * 8 + b : Nat) : Int) (r : Int)).val)))) ∧
    SetImage testMessage testImage =
      .ok ({ testMessage with
             Columns := [zeroCell, litCell, zeroCell, zeroCell] }, none) :=
  ⟨⟨by decide, by decide, by decide, by decide, by decide⟩,
    bitmap_encoding testMessage testImage (by decide) (by decide) (by decide)⟩

/-- C15 as stated fails twice. The all-black image of height 11 and width
`2^62` makes `make` panic (`2^59` cells of 11 bytes), so `SetImage` does not
succeed. And on the solid 255 raster of height 11 and width 8 whose left edge
is at column 8, `SetImage` succeeds with one cell, but bit 7 of
`Columns[0][0]` is clear although column 0 is inside the width and the
raster's pixel in column 0, row 0 has gray value 255. -/
theorem bitmap_encoding_counterexample :
    (hugeImage.Bounds.Dy = 11 ∧ 0 ≤ hugeImage.Bounds.Dx ∧
      SetImage testMessage hugeImage = .error .makesliceLenOutOfRange) ∧
    (shiftedImage.Bounds.Dy = 11 ∧ 0 ≤ shiftedImage.Bounds.Dx ∧
      SetImage testMessage shiftedImage =
        .ok ({ testMessage with Columns := [zeroCell] }, none) ∧
      ((0 * 8 + 0 : Nat) : Int) < shiftedImage.Bounds.Dx ∧
      127 < (shiftedImage.pixel ((0 * 8 + 0 : Nat) : Int) ((0 : Nat) : Int)).val ∧
      ((zeroCell.val.getD 0 0).val.testBit (7 - 0) = true ↔ False)) :=
  ⟨⟨by decide, by decide, rfl⟩, ⟨by decide, by decide, rfl, by decide, by decide, by decide⟩⟩

/-! ## C16: the threshold on a solid raster -/

set_option maxRecDepth 8192 in
theorem byte_all_bits (v : Byte) (h : ∀ k, k < 8 → v.val.testBit k = true) : v = 255 := by
  have hd : ∀ v : Byte, (∀ k, k < 8 → v.val.testBit k = true) → v = 255 := by decide
  exact hd v h

set_option maxRecDepth 8192 in
theorem byte_no_bits (v : Byte) (h : ∀ k, k < 8 → v.val.testBit k = false) : v = 0 := by
  have hd : ∀ v : Byte, (∀ k, k < 8 → v.val.testBit k = false) → v = 0 := by decide
  exact hd v h

theorem byte_of_bits (v : Byte) (lit : Prop) [Decidable lit]
    (h : ∀ b, b < 8 → (v.val.testBit (7 - b) = true ↔ lit)) :
    v = if lit then 255 else 0 := by
  by_cases hl : lit
  · rw [if_pos hl]
    apply byte_all_bits
    intro k hk
    have := (h (7 - k) (by omega)).2 hl
    rwa [show 7 - (7 - k) = k by omega] at this
  · rw [if_neg hl]
    apply byte_no_bits
    intro k hk
    have := (h (7 - k) (by omega)).1
    rw [show 7 - (7 - k) = k by omega] at this
    cases hb : v.val.testBit k
    · rfl
    · exact absurd (this hb) hl

theorem cell_of_rows (cell : Cell) (x : Byte) (h : ∀ r, r < 11 → cell.val.getD r 0 = x) :
    cell = ⟨List.replicate 11 x, by simp⟩ := by
  apply Subtype.ext
  apply List.ext_getElem
  · simp [cell.property]
  · intro r h1 h2
    have hr : r < 11 := by rw [cell.property] at h1; exact h1
    have := h r hr
    rw [List.getD_eq_getElem?_getD, List.getElem?_eq_getElem h1, Option.getD_some] at this
    rw [this, List.getElem_replicate]

/-- Where the threshold law does hold: on a solid raster of height 11 and
width 8 whose bounds start at the origin, `SetImage` yields one cell, all 0xFF
if `L > 127` and all 0x00 otherwise. -/
theorem SetImage_solid_at_origin (L : Byte) (m : Message) (img : Image)
    (h11 : img.Bounds.Dy = 11) (h8 : img.Bounds.Dx = 8)
    (h0 : img.Bounds.Min.X = 0 ∧ img.Bounds.Min.Y = 0)
    (hs : ∀ x y, 0 ≤ x → x < 8 → 0 ≤ y → y < 11 → img.pixel x y = L) :
    SetImage m img =
      .ok ({ m with Columns := [if 127 < L.val then fullCell else zeroCell] }, none) := by
  obtain ⟨cols, h1, h2, h3⟩ := SetImage_spec m img h11 (by omega) (by rw [h8]; decide)
  have hlen : cols.length = 1 := by omega
  obtain ⟨cell, rfl⟩ : ∃ cell, cols = [cell] := by
    match cols, hlen with
    | [cell], _ => exact ⟨cell, rfl⟩
  rw [h1]
  have hrow : ∀ r, r < 11 → cell.val.getD r 0 = if 127 < L.val then 255 else 0 := by
    intro r hr
    apply byte_of_bits
    intro b hb
    have := h3 0 r b (by simp) hr hb
    simp only [List.getD_cons_zero, Nat.zero_mul, Nat.zero_add] at this
    have hp := hs (b : Int) (r : Int) (by omega) (by omega) (by omega) (by omega)
    unfold Image.pixel at hp
    rw [h0.1, h0.2, Int.zero_add, Int.zero_add] at hp
    rw [this, hp]
    constructor
    · exact fun h => h.2
    · exact fun h => ⟨by omega, h⟩
  have hcell := cell_of_rows cell _ hrow
  rw [hcell]
  split <;> rfl

/-- C16 fails on the code: the gray raster of height 11 and width 8 whose left
edge is at column 8 has luminance 255 at every one of its pixels, and the law
asks for one all-0xFF cell; `SetImage` accepts the raster, reads the points
(0..7, 0..10) outside it and returns one all-0x00 cell with a nil error. -/
theorem threshold_law_offset_raster :
    shiftedImage.Bounds.Dy = 11 ∧ shiftedImage.Bounds.Dx = 8 ∧
      (∀ x y, shiftedImage.Bounds.Min.X ≤ x → x < shiftedImage.Bounds.Max.X →
        shiftedImage.Bounds.Min.Y ≤ y → y < shiftedImage.Bounds.Max.Y →
        shiftedImage.GrayAt x y = 255) ∧
      (∀ x y, 0 ≤ x → x < 8 → 0 ≤ y → y < 11 → shiftedImage.pixel x y = 255) ∧
      SetImage testMessage shiftedImage =
        .ok ({ testMessage with Columns := [zeroCell] }, none) ∧
      zeroCell ≠ fullCell := by
  refine ⟨by decide, by decide, ?_, ?_, rfl, by decide⟩
  · intro x y h1 h2 h3 h4
    simp only [shiftedImage] at h1 h2 h3 h4 ⊢
    rw [if_pos ⟨h1, h2, h3, h4⟩]
  · intro x y h1 h2 h3 h4
    simp only [Image.pixel, shiftedImage]
    rw [if_pos ⟨by omega, by omega, by omega, by omega⟩]

/-! ## C17: the size ceiling -/

theorem totalCells_const (ms : List Message) (n : Nat)
    (h : ∀ m ∈ ms, m.Columns.length = n) : totalCells ms = n * ms.length := by
  induction ms with
  | nil => rfl
  | cons m ms ih =>
    rw [totalCells, h m (List.mem_cons_self _ _),
      ih (fun m2 hm2 => h m2 (List.mem_cons_of_mem _ hm2)), List.length_cons]
    rw [Nat.mul_succ]
    omega

/-- C17: for every packet with at most 8 messages and `N` cells in all, the
encoding holds the whole body (nothing is cut off), its length exceeds 8192
bytes exactly when `N ≥ 739`, and that is exactly when the size guard of
`main` stops the program instead of writing to the device; 8 messages of 1000
cells each give 88064 bytes, which the guard stops. -/
theorem size_ceiling (p : Packet) (hn : p.Messages.length ≤ 8) :
    ∃ data, MarshalBinary p = .ok data ∧
      (data.drop 64).take (11 * totalCells p.Messages) = bodyBytes p.Messages ∧
      64 + 11 * totalCells p.Messages ≤ data.length ∧
      (8192 < data.length ↔ 739 ≤ totalCells p.Messages) ∧
      (mainSend data = .fatal data.length ↔ 739 ≤ totalCells p.Messages) ∧
      (mainSend data = .written data ↔ totalCells p.Messages < 739) ∧
      (p.Messages.length = 8 → (∀ m ∈ p.Messages, m.Columns.length = 1000) →
        data.length = 88064 ∧ mainSend data = .fatal 88064) := by
  obtain ⟨ph, h1, _⟩ := MarshalBinary_spec p hn
  have hlen : (writeHeader ph ++ bodyBytes p.Messages ++
      List.replicate (padLength (64 + 11 * totalCells p.Messages)) 0).length =
      64 * ((64 + 11 * totalCells p.Messages + 63) / 64) := by
    simp only [List.length_append, writeHeader_length, bodyBytes_length, List.length_replicate,
      padLength]
    split <;> omega
  have hiff : 8192 < 64 * ((64 + 11 * totalCells p.Messages + 63) / 64) ↔
      739 ≤ totalCells p.Messages := by omega
  refine ⟨_, h1, ?_, ?_, ?_, ?_, ?_, ?_⟩
  · rw [List.append_assoc, List.drop_left' (writeHeader_length ph),
      List.take_left' (bodyBytes_length p.Messages)]
  · rw [hlen]; omega
  · rw [hlen]; exact hiff
  · unfold mainSend
    rw [hlen]
    constructor
    · intro h
      by_contra hc
      have h2 : ¬ 64 * ((64 + 11 * totalCells p.Messages + 63) / 64) > 8192 := by omega
      rw [if_neg h2] at h
      cases h
    · intro h
      rw [if_pos (by omega)]
  · unfold mainSend
    rw [hlen]
    constructor
    · intro h
      by_contra hc
      have h2 : 64 * ((64 + 11 * totalCells p.Messages + 63) / 64) > 8192 := by omega
      rw [if_pos h2] at h
      cases h
    · intro h
      rw [if_neg (by omega)]
  · intro h8 hall
    have ht : totalCells p.Messages = 8000 := by
      rw [totalCells_const p.Messages 1000 hall, h8]
    unfold mainSend
    rw [hlen, ht]
    have e : 64 * ((64 + 11 * 8000 + 63) / 64) = 88064 := by decide
    rw [e, if_pos (by decide)]
    exact ⟨rfl, rfl⟩

theorem size_ceiling_witness :
    bigPacket.Messages.length ≤ 8 ∧
    ∃ data, MarshalBinary bigPacket = .ok data ∧
      (data.drop 64).take (11 * totalCells bigPacket.Messages) = bodyBytes bigPacket.Messages ∧
      64 + 11 * totalCells bigPacket.Messages ≤ data.length ∧
      (8192 < data.length ↔ 739 ≤ totalCells bigPacket.Messages) ∧
      (mainSend data = .fatal data.length ↔ 739 ≤ totalCells bigPacket.Messages) ∧
      (mainSend data = .written data ↔ totalCells bigPacket.Messages < 739) ∧
      (bigPacket.Messages.length = 8 → (∀ m ∈ bigPacket.Messages, m.Columns.length = 1000) →
        data.length = 88064 ∧ mainSend data = .fatal 88064) :=
  ⟨by decide, size_ceiling bigPacket (by decide)⟩

/-! ## C18: bytes after the body -/

/-- The decoder loop reads only the bytes the lengths announce. -/
theorem unmarshalLoop_take (ph : packetHeader) (lens : List Word16) :
    ∀ (idx : Nat) (buf buf2 : List Byte) (msgs : List Message),
      11 * sumLengths lens ≤ buf.length → 11 * sumLengths lens ≤ buf2.length →
      buf2.take (11 * sumLengths lens) = buf.take (11 * sumLengths lens) →
      unmarshalLoop ph lens idx buf2 msgs = unmarshalLoop ph lens idx buf msgs := by
  induction lens with
  | nil => intro idx buf buf2 msgs _ _ _; rfl
  | cons w lens ih =>
    intro idx buf buf2 msgs h1 h2 h3
    rw [sumLengths] at h1 h2 h3
    by_cases h0 : w.val = 0
    · rw [unmarshalLoop_skip _ _ _ _ _ _ h0, unmarshalLoop_skip _ _ _ _ _ _ h0]
      rw [h0, Nat.zero_add] at h1 h2 h3
      exact ih (idx + 1) buf buf2 msgs h1 h2 h3
    · rw [unmarshalLoop_read _ _ _ _ _ _ h0 (by omega),
        unmarshalLoop_read _ _ _ _ _ _ h0 (by omega)]
      have e1 : buf2.take (11 * w.val) = buf.take (11 * w.val) := by
        have := congrArg (List.take (11 * w.val)) h3
        rw [List.take_take, List.take_take, Nat.min_eq_left (by omega)] at this
        exact this
      have e2 : (buf2.drop (11 * w.val)).take (11 * sumLengths lens) =
          (buf.drop (11 * w.val)).take (11 * sumLengths lens) := by
        have := congrArg (List.drop (11 * w.val)) h3
        rw [List.drop_take, List.drop_take] at this
        rw [show 11 * (w.val + sumLengths lens) - 11 * w.val = 11 * sumLengths lens by omega]
          at this
        exact this
      rw [e1]
      exact ih (idx + 1) _ _ _ (by rw [List.length_drop]; omega)
        (by rw [List.length_drop]; omega) e2

/-- C18: for every buffer `b` that `UnmarshalBinary` decodes successfully,
with `L` the sum of its `messageLength` values, and every buffer `b2` of at
least `64 + 11 L` bytes that agrees with `b` on the first `64 + 11 L` bytes,
decoding `b2` succeeds too and gives the same Magic, Timestamp and Messages,
whatever bytes follow. -/
theorem padding_not_inspected (q : Packet) (b b2 : List Byte)
    (h : (UnmarshalBinary q b).2 = none)
    (hl : 64 + 11 * announcedCells b ≤ b2.length)
    (ha : b2.take (64 + 11 * announcedCells b) = b.take (64 + 11 * announcedCells b)) :
    (UnmarshalBinary q b2).2 = none ∧
      (UnmarshalBinary q b2).1.Magic = (UnmarshalBinary q b).1.Magic ∧
      (UnmarshalBinary q b2).1.Timestamp = (UnmarshalBinary q b).1.Timestamp ∧
      (UnmarshalBinary q b2).1.Messages = (UnmarshalBinary q b).1.Messages := by
  obtain ⟨h64, _⟩ := UnmarshalBinary_success q b h
  have hlen := UnmarshalBinary_length q b h
  have e64 : b2.take 64 = b.take 64 := by
    have := congrArg (List.take 64) ha
    rw [List.take_take, List.take_take, Nat.min_eq_left (by omega)] at this
    exact this
  have ehdr : headerAt b2 = headerAt b := by
    unfold headerAt
    rw [e64]
  have ebody : (b2.drop 64).take (11 * announcedCells b) =
      (b.drop 64).take (11 * announcedCells b) := by
    have := congrArg (List.drop 64) ha
    rw [List.drop_take, List.drop_take] at this
    rw [show 64 + 11 * announcedCells b - 64 = 11 * announcedCells b by omega] at this
    exact this
  have hs : sumLengths (headerAt b).MessageLength.val = announcedCells b :=
    headerAt_sumLengths b
  have eloop : unmarshalLoop (headerAt b) (headerAt b).MessageLength.val 0 (b2.drop 64) [] =
      unmarshalLoop (headerAt b) (headerAt b).MessageLength.val 0 (b.drop 64) [] := by
    apply unmarshalLoop_take
    · rw [hs, List.length_drop]; omega
    · rw [hs, List.length_drop]; omega
    · rw [hs]; exact ebody
  have eall : UnmarshalBinary q b2 = UnmarshalBinary q b := by
    unfold UnmarshalBinary
    rw [readHeader_eq b h64, readHeader_eq b2 (by omega), ehdr]
    simp only [eloop]
  rw [eall]
  exact ⟨h, rfl, rfl, rfl⟩

theorem padding_not_inspected_witness :
    ((UnmarshalBinary emptyPacket gapData).2 = none ∧
      64 + 11 * announcedCells gapData ≤ (gapData ++ [1, 2, 3]).length ∧
      (gapData ++ [1, 2, 3]).take (64 + 11 * announcedCells gapData) =
        gapData.take (64 + 11 * announcedCells gapData)) ∧
    ((UnmarshalBinary emptyPacket (gapData ++ [1, 2, 3])).2 = none ∧
      (UnmarshalBinary emptyPacket (gapData ++ [1, 2, 3])).1.Magic =
        (UnmarshalBinary emptyPacket gapData).1.Magic ∧
      (UnmarshalBinary emptyPacket (gapData ++ [1, 2, 3])).1.Timestamp =
        (UnmarshalBinary emptyPacket gapData).1.Timestamp ∧
      (UnmarshalBinary emptyPacket (gapData ++ [1, 2, 3])).1.Messages =
        (UnmarshalBinary emptyPacket gapData).1.Messages) :=
  ⟨⟨gapData_decodes, by decide, by decide⟩,
    padding_not_inspected emptyPacket gapData (gapData ++ [1, 2, 3]) gapData_decodes
      (by decide) (by decide)⟩

/-! ## C19: the capacity of the header -/

/-- With more messages than free slots the encoder loop runs into the end of
the header arrays. -/
theorem marshalLoop_overflow (ms : List Message) :
    ∀ (idx : Nat) (ph : packetHeader) (mb : List Byte), idx ≤ 8 → 8 < idx + ms.length →
      marshalLoop ms idx ph mb = .error (.indexOutOfRange 8 8) := by
  induction ms with
  | nil => intro idx ph mb h1 h2; simp at h2; omega
  | cons m ms ih =>
    intro idx ph mb h1 h2
    simp only [List.length_cons] at h2
    by_cases h8 : idx = 8
    · subst h8
      simp [marshalLoop, setAt]
    · have hlt : idx < 8 := by omega
      simp only [marshalLoop, setAt, hlt, if_true]
      exact ih (idx + 1) _ _ (by omega) (by omega)

/-- C19: for every packet with at most 8 messages `MarshalBinary` returns a
buffer and no error, every index it uses on the 8-entry header arrays being
in range; for every packet with 9 or more messages it checks nothing itself
and stops with an index-out-of-range panic at index 8 of the 8-entry arrays,
returning no buffer. -/
theorem message_capacity (p : Packet) :
    (p.Messages.length ≤ 8 →
      (∃ data, MarshalBinary p = .ok data) ∧
      ∀ idx, idx < p.Messages.length → ∀ (a : FixedArray Byte 8) (w : FixedArray Word16 8)
        (x : Byte) (y : Word16), (∃ a2, setAt a idx x = .ok a2) ∧ ∃ w2, setAt w idx y = .ok w2) ∧
    (9 ≤ p.Messages.length → MarshalBinary p = .error (.indexOutOfRange 8 8)) := by
  constructor
  · intro h
    obtain ⟨ph, h1, _⟩ := MarshalBinary_spec p h
    refine ⟨⟨_, h1⟩, ?_⟩
    intro idx hidx a w x y
    have hlt : idx < 8 := by omega
    unfold setAt
    rw [if_pos hlt, if_pos hlt]
    exact ⟨⟨_, rfl⟩, ⟨_, rfl⟩⟩
  · intro h
    unfold MarshalBinary
    rw [marshalLoop_overflow p.Messages 0 (initHeader p) [] (by omega) (by omega)]

/-! ## C20: the timestamp is validated -/

/-- A buffer with a complete header whose timestamp bytes are no date and
time is rejected with the parse error. -/
theorem UnmarshalBinary_invalid_tm (q : Packet) (data : List Byte) (hl : 64 ≤ data.length)
    (hv : ¬ validTm (tmBytesAt data)) : (UnmarshalBinary q data).2 = some .ParseError := by
  unfold UnmarshalBinary
  rw [readHeader_eq data hl]
  simp only [headerAt_tm, timeParse_of_not_validTm _ hv]

/-- C20: for every buffer of at least 64 bytes, decoding succeeds only if the
year byte is at most 99, the month byte is in 1..12, the day byte is a day of
that month, the hour byte is at most 23 and the minute and second bytes are
at most 59; otherwise the parse error is returned. In particular the buffer
of 64 zero bytes fails to decode although no byte is missing. -/
theorem timestamp_validation (q : Packet) (data : List Byte) (hl : 64 ≤ data.length) :
    ((UnmarshalBinary q data).2 = none →
      (data.getD 38 0).val ≤ 99 ∧
      1 ≤ (data.getD 39 0).val ∧ (data.getD 39 0).val ≤ 12 ∧
      1 ≤ (data.getD 40 0).val ∧
      (data.getD 40 0).val ≤ daysIn (data.getD 39 0).val (2000 + ((data.getD 38 0).val : Int)) ∧
      (data.getD 41 0).val ≤ 23 ∧ (data.getD 42 0).val ≤ 59 ∧ (data.getD 43 0).val ≤ 59) ∧
    (¬ ((data.getD 38 0).val ≤ 99 ∧
        1 ≤ (data.getD 39 0).val ∧ (data.getD 39 0).val ≤ 12 ∧
        1 ≤ (data.getD 40 0).val ∧
        (data.getD 40 0).val ≤
          daysIn (data.getD 39 0).val (2000 + ((data.getD 38 0).val : Int)) ∧
        (data.getD 41 0).val ≤ 23 ∧ (data.getD 42 0).val ≤ 59 ∧ (data.getD 43 0).val ≤ 59) →
      (UnmarshalBinary q data).2 = some .ParseError) ∧
    (List.replicate 64 (0 : Byte)).length = 64 ∧
    (UnmarshalBinary q (List.replicate 64 0)).2 = some .ParseError := by
  have hiff : validTm (tmBytesAt data) ↔
      ((data.getD 38 0).val ≤ 99 ∧
        1 ≤ (data.getD 39 0).val ∧ (data.getD 39 0).val ≤ 12 ∧
        1 ≤ (data.getD 40 0).val ∧
        (data.getD 40 0).val ≤
          daysIn (data.getD 39 0).val (2000 + ((data.getD 38 0).val : Int)) ∧
        (data.getD 41 0).val ≤ 23 ∧ (data.getD 42 0).val ≤ 59 ∧ (data.getD 43 0).val ≤ 59) := by
    unfold validTm validCivil tmBytesAt
    simp only []
    constructor
    · rintro ⟨h1, h2, h3, h4, h5, h6, h7, h8⟩
      exact ⟨h1, h2, h3, h4, h5, by omega, by omega, by omega⟩
    · rintro ⟨h1, h2, h3, h4, h5, h6, h7, h8⟩
      exact ⟨h1, h2, h3, h4, h5, by omega, by omega, by omega⟩
  refine ⟨?_, ?_, by decide, ?_⟩
  · intro h
    exact hiff.1 (UnmarshalBinary_timestamp q data h).1
  · intro hn
    exact UnmarshalBinary_invalid_tm q data hl (fun hv => hn (hiff.1 hv))
  · exact UnmarshalBinary_invalid_tm q _ (by decide) (by decide)

theorem timestamp_validation_witness :
    64 ≤ gapData.length ∧
    (((UnmarshalBinary emptyPacket gapData).2 = none →
      (gapData.getD 38 0).val ≤ 99 ∧
      1 ≤ (gapData.getD 39 0).val ∧
      (gapData.getD 39 0).val ≤ 12 ∧
      1 ≤ (gapData.getD 40 0).val ∧
      (gapData.getD 40 0).val ≤
        daysIn (gapData.getD 39 0).val
          (2000 + ((gapData.getD 38 0).val : Int)) ∧
      (gapData.getD 41 0).val ≤ 23 ∧
      (gapData.getD 42 0).val ≤ 59 ∧
      (gapData.getD 43 0).val ≤ 59) ∧
    (¬ ((gapData.getD 38 0).val ≤ 99 ∧
        1 ≤ (gapData.getD 39 0).val ∧
        (gapData.getD 39 0).val ≤ 12 ∧
        1 ≤ (gapData.getD 40 0).val ∧
        (gapData.getD 40 0).val ≤
          daysIn (gapData.getD 39 0).val
            (2000 + ((gapData.getD 38 0).val : Int)) ∧
        (gapData.getD 41 0).val ≤ 23 ∧
        (gapData.getD 42 0).val ≤ 59 ∧
        (gapData.getD 43 0).val ≤ 59) →
      (UnmarshalBinary emptyPacket gapData).2 = some .ParseError) ∧
    (List.replicate 64 (0 : Byte)).length = 64 ∧
    (UnmarshalBinary emptyPacket (List.replicate 64 0)).2 = some .ParseError) :=
  ⟨by decide, timestamp_validation emptyPacket gapData (by decide)⟩

end BadgeMagic
